import Mathlib

set_option autoImplicit false

variable {α : Type} {V : Type} {β : Type}

/-!
Verification development for the mseep reconciliation engine.

Shallow embedding of the Go sources:
  internal/fuzzy/fuzzy.go            (scoreOne, Candidates)
  internal/adapters/claude/claude.go (Load, Detect, Backup, Apply)
  internal/adapters/cline/cline.go   (Load, Detect, Backup, Apply)
  internal/adapters/cursor/cursor.go, internal/adapters/vscode/vscode.go,
  internal/adapters/warp/warp.go     (Load, Detect)
  internal/app/apply.go              (applyToClaude, applyToGenericClient)
  internal/health/health.go          (Manager.CheckServer)
  plus the fragment of Go's sort.Slice (src/sort/zsortfunc.go, Go >= 1.19)
  that fuzzy.Candidates relies on.

Modelling conventions:
  * Go strings are modelled as `List Char`; Go `len` is the byte length,
    which coincides with the character count on ASCII data (all inputs in
    this development are ASCII; strings.ToLower / TrimSpace are modelled
    with their ASCII behaviour).
  * Go `map[string]V` values are modelled as key-sorted association lists
    (`SMap V`).  `encoding/json` serializes Go maps with sorted keys, so
    byte equality of `json.MarshalIndent` output on the config structs is
    equivalent to equality of these canonical values; "serialized states
    are byte-equal" is therefore modelled as structural equality.
  * File bytes are abstracted by their parse classification
    (`FileData`): absent, present-but-unparsable, or a parsed value.
    This is exactly what the adapters observe through os.ReadFile +
    json.Unmarshal.
  * Real time (durations, timestamps) and OS process execution are not
    modelled; the health-check loop is parameterized by an oracle giving
    each attempt's outcome and by a cancellation oracle for the
    inter-retry delay points.
-/

/-- ASCII whitespace recognized by Go's strings.TrimSpace / strings.Fields
(unicode.IsSpace restricted to ASCII). -/
def isSpaceGo (c : Char) : Bool :=
  c = ' ' || c = '\t' || c = '\n' || c = '\x0b' || c = '\x0c' || c = '\r'

/-- ASCII case folding, as strings.ToLower acts on ASCII bytes. -/
def lowerGo (c : Char) : Char :=
  if 'A' ≤ c && c ≤ 'Z' then Char.ofNat (c.toNat + 32) else c

/-- strings.ToLower (ASCII fragment). -/
def goToLower (s : List Char) : List Char := s.map lowerGo

/-- strings.TrimSpace (ASCII fragment): drop leading and trailing whitespace. -/
def goTrimSpace (s : List Char) : List Char :=
  ((s.dropWhile isSpaceGo).reverse.dropWhile isSpaceGo).reverse

/-- Does the second list start with the first? (strings.HasPrefix helper for
the containment scan.) -/
def startsWithL : List Char → List Char → Bool
  | [], _ => true
  | _ :: _, [] => false
  | c :: cs, d :: ds => c = d && startsWithL cs ds

/-- strings.Contains(s, q): q occurs as a contiguous substring of s.
`containsL q s` scans every suffix of s. -/
def containsL (q : List Char) : List Char → Bool
  | [] => q.isEmpty
  | c :: rest => startsWithL q (c :: rest) || containsL q rest

/-- strings.Fields: whitespace-separated tokens. -/
def goFields : List Char → List (List Char)
  | [] => []
  | c :: rest =>
    if isSpaceGo c then goFields rest
    else
      match goFields rest with
      | [] => [[c]]
      | w :: ws =>
        if isSpaceGo (rest.headD ' ') then [c] :: w :: ws
        else (c :: w) :: ws

/-- Normalized form used by scoreOne: lowercase of the trimmed string. -/
def normQS (s : String) : List Char := goToLower (goTrimSpace s.toList)

/-- fuzzy.scoreOne (internal/fuzzy/fuzzy.go:23-42), translated clause by
clause.  Both arguments are trimmed and lowercased first; empty input
scores 0; exact equality scores 100; substring containment scores
80 - (len s - len q); otherwise, if every whitespace token of q occurs in
s, 60 - (len s - len q); otherwise 0.  Lengths are byte lengths
(= character counts on ASCII). -/
def scoreOne (q s : String) : Int :=
  let ql := normQS q
  let sl := normQS s
  if ql.isEmpty || sl.isEmpty then 0
  else if ql = sl then 100
  else if containsL ql sl then 80 - ((sl.length : Int) - ql.length)
  else
    let toks := goFields ql
    let present := (toks.filter (fun t => containsL t sl)).length
    if present = toks.length && decide (0 < toks.length) then
      60 - ((sl.length : Int) - ql.length)
    else 0

/-- fuzzy.Index. -/
structure Index where
  name : String
  aliases : List String
  tags : List String
deriving DecidableEq, Repr, Inhabited

/-- fuzzy.Result. -/
structure Result where
  index : Index
  score : Int
deriving DecidableEq, Repr, Inhabited

/-- The best score of one entity: scoreOne against the name, then each
alias and each tag, keeping the maximum (fuzzy.go:50-52). -/
def bestScore (q : String) (it : Index) : Int :=
  let base := scoreOne q it.name
  let withAliases :=
    it.aliases.foldl (fun best s => if scoreOne q s > best then scoreOne q s else best) base
  it.tags.foldl (fun best s => if scoreOne q s > best then scoreOne q s else best) withAliases

/-- The slice fuzzy.Candidates builds before sorting (fuzzy.go:48-56):
entities in input order, each with its best score, keeping only strictly
positive scores. -/
def preScores (q : String) (idx : List Index) : List Result :=
  idx.filterMap (fun it =>
    let best := bestScore q it
    if 0 < best then some { index := it, score := best } else none)

/-!
## Go sort.Slice (src/sort/zsortfunc.go, Go >= 1.19)

fuzzy.Candidates sorts with sort.Slice, which is pattern-defeating
quicksort over an index/swap interface.  The embedding below follows the
Go source function by function; loops become fuel-indexed recursion (the
fuel given at the top level strictly exceeds the number of loop
iterations Go can perform, so it is never exhausted).  Element access
`data.Less(i, j)` becomes `lt (dget l i) (dget l j)`.
-/

/-- data element at index i (all Go accesses are in bounds). -/
def dget [Inhabited α] (l : List α) (i : Nat) : α := l.getD i default

/-- data.Swap(i, j).  Out-of-range indices (which panic in Go and never
occur in its executions) leave the list unchanged. -/
def dswap [Inhabited α] (l : List α) (i j : Nat) : List α :=
  if i < l.length && j < l.length then (l.set i (dget l j)).set j (dget l i) else l

/-- One step of Go's insertionSort_func: insert x into the sorted prefix.
Go bubbles x leftwards from the end while it is strictly `lt` the left
neighbour; on a prefix sorted by this relation that is the same as
scanning from the left and placing x directly before the first element y
with `lt x y` (in particular x lands after every element it ties with,
keeping ties in arrival order). -/
def goInsert (lt : α → α → Bool) (x : α) : List α → List α
  | [] => [x]
  | y :: ys => if lt x y then x :: y :: ys else y :: goInsert lt x ys

/-- insertionSort_func on a whole list: fold the elements left to right
into a sorted prefix (Go's outer loop over i). -/
def insSortList (lt : α → α → Bool) (l : List α) : List α :=
  l.foldl (fun acc x => goInsert lt x acc) []

/-- The subrange [a, b) of the data. -/
def sliceRange (l : List α) (a b : Nat) : List α := (l.drop a).take (b - a)

/-- Replace the subrange [a, b) of the data. -/
def spliceRange (l : List α) (a b : Nat) (mid : List α) : List α :=
  l.take a ++ mid ++ l.drop b

/-- insertionSort_func(data, a, b): sort the subrange in place. -/
def insertionSortRange [Inhabited α] (lt : α → α → Bool) (l : List α) (a b : Nat) : List α :=
  spliceRange l a b (insSortList lt (sliceRange l a b))

/-- siftDown_func, recursing on the walk down from root. -/
def siftDownGo [Inhabited α] (lt : α → α → Bool) : Nat → List α → Nat → Nat → Nat → List α
  | 0, l, _, _, _ => l
  | fuel + 1, l, root, hi, first =>
    let child := 2 * root + 1
    if hi ≤ child then l
    else
      let child :=
        if child + 1 < hi && lt (dget l (first + child)) (dget l (first + child + 1)) then
          child + 1
        else child
      if ! lt (dget l (first + root)) (dget l (first + child)) then l
      else siftDownGo lt fuel (dswap l (first + root) (first + child)) child hi first

/-- heapSort_func build phase: siftDown for i = (hi-1)/2 down to 0
(the counter k+1 processes root k next). -/
def heapBuildGo [Inhabited α] (lt : α → α → Bool) (hi first : Nat) : Nat → List α → List α
  | 0, l => l
  | k + 1, l => heapBuildGo lt hi first k (siftDownGo lt (hi + 1) l k hi first)

/-- heapSort_func pop phase: for i = hi-1 down to 0, swap the max to the
end and restore the heap. -/
def heapPopGo [Inhabited α] (lt : α → α → Bool) (first : Nat) : Nat → List α → List α
  | 0, l => l
  | k + 1, l => heapPopGo lt first k (siftDownGo lt (k + 2) (dswap l first (first + k)) 0 k first)

/-- heapSort_func(data, a, b). -/
def heapSortGo [Inhabited α] (lt : α → α → Bool) (l : List α) (a b : Nat) : List α :=
  let first := a
  let hi := b - a
  heapPopGo lt first hi (heapBuildGo lt hi first ((hi - 1) / 2 + 1) l)

/-- reverseRange_func(data, a, b) (the symmetric swap loop reverses the
subrange). -/
def reverseRangeGo (l : List α) (a b : Nat) : List α :=
  spliceRange l a b (sliceRange l a b).reverse

/-- xorshift.Next on a uint64 state. -/
def xorshiftNext (x : Nat) : Nat :=
  let m := 2 ^ 64 - 1
  let x := (x ^^^ (x <<< 13)) &&& m
  let x := x ^^^ (x >>> 7)
  (x ^^^ (x <<< 17)) &&& m

/-- bits.Len. -/
def bitsLen (n : Nat) : Nat := if n = 0 then 0 else n.log2 + 1

/-- nextPowerOfTwo from zsortfunc.go. -/
def nextPow2 (length : Nat) : Nat := 1 <<< bitsLen length

/-- breakPatterns_func: three pseudo-random swaps around the middle,
xorshift seeded with the range length. -/
def breakPatternsGo [Inhabited α] (l : List α) (a b : Nat) : List α :=
  let length := b - a
  if 8 ≤ length then
    let modulus := nextPow2 length
    let idx := a + (length / 4) * 2 - 1
    let r1 := xorshiftNext length
    let r2 := xorshiftNext r1
    let r3 := xorshiftNext r2
    let o1 := let o := r1 &&& (modulus - 1); if length ≤ o then o - length else o
    let o2 := let o := r2 &&& (modulus - 1); if length ≤ o then o - length else o
    let o3 := let o := r3 &&& (modulus - 1); if length ≤ o then o - length else o
    dswap (dswap (dswap l (idx - 1) (a + o1)) idx (a + o2)) (idx + 1) (a + o3)
  else l

/-- The hint returned by choosePivot_func. -/
inductive SortHint where
  | increasing
  | decreasing
  | unknown
deriving DecidableEq, Repr

/-- order2_func: order two indices by the data under them, counting swaps. -/
def order2Go [Inhabited α] (lt : α → α → Bool) (l : List α) (a b swaps : Nat) :
    Nat × Nat × Nat :=
  if lt (dget l b) (dget l a) then (b, a, swaps + 1) else (a, b, swaps)

/-- median_func: index of the median of three, counting swaps. -/
def medianGo [Inhabited α] (lt : α → α → Bool) (l : List α) (a b c swaps : Nat) :
    Nat × Nat :=
  match order2Go lt l a b swaps with
  | (a1, b1, s1) =>
    match order2Go lt l b1 c s1 with
    | (b2, _, s2) =>
      match order2Go lt l a1 b2 s2 with
      | (_, b3, s3) => (b3, s3)

/-- medianAdjacent_func. -/
def medianAdjGo [Inhabited α] (lt : α → α → Bool) (l : List α) (a swaps : Nat) : Nat × Nat :=
  medianGo lt l (a - 1) a (a + 1) swaps

/-- choosePivot_func. -/
def choosePivotGo [Inhabited α] (lt : α → α → Bool) (l : List α) (a b : Nat) :
    Nat × SortHint :=
  let len := b - a
  let i0 := a + (len / 4) * 1
  let j0 := a + (len / 4) * 2
  let k0 := a + (len / 4) * 3
  if 8 ≤ len then
    let (i1, j1, k1, s1) :=
      if 50 ≤ len then
        match medianAdjGo lt l i0 0 with
        | (i1, sa) =>
          match medianAdjGo lt l j0 sa with
          | (j1, sb) =>
            match medianAdjGo lt l k0 sb with
            | (k1, sc) => (i1, j1, k1, sc)
      else (i0, j0, k0, 0)
    match medianGo lt l i1 j1 k1 s1 with
    | (j2, swaps) =>
      if swaps = 0 then (j2, SortHint.increasing)
      else if swaps = 12 then (j2, SortHint.decreasing)
      else (j2, SortHint.unknown)
  else (j0, SortHint.unknown)

/-- Scan of partialInsertionSort_func: advance i while the pair (i-1, i)
is not strictly out of order. -/
def almostScanGo [Inhabited α] (lt : α → α → Bool) (l : List α) (b : Nat) : Nat → Nat → Nat
  | i, 0 => i
  | i, fuel + 1 =>
    if i < b && ! lt (dget l i) (dget l (i - 1)) then almostScanGo lt l b (i + 1) fuel
    else i

/-- Leftward shift loop of partialInsertionSort_func (for j := i-1; j >= 1; j--). -/
def shiftLeftGo [Inhabited α] (lt : α → α → Bool) : List α → Nat → List α
  | l, 0 => l
  | l, j + 1 =>
    if ! lt (dget l (j + 1)) (dget l j) then l
    else shiftLeftGo lt (dswap l (j + 1) j) j

/-- Rightward shift loop of partialInsertionSort_func (for j := i+1; j < b; j++). -/
def shiftRightGo [Inhabited α] (lt : α → α → Bool) (b : Nat) : List α → Nat → Nat → List α
  | l, _, 0 => l
  | l, j, fuel + 1 =>
    if b ≤ j then l
    else if ! lt (dget l j) (dget l (j - 1)) then l
    else shiftRightGo lt b (dswap l j (j - 1)) (j + 1) fuel

/-- partialInsertionSort_func: up to 5 adjacent corrections; true means
the range ended up sorted. -/
def almostSortGo [Inhabited α] (lt : α → α → Bool) (a b : Nat) :
    List α → Nat → Nat → List α × Bool
  | l, _, 0 => (l, false)
  | l, i, steps + 1 =>
    let i := almostScanGo lt l b i b
    if i = b then (l, true)
    else if b - a < 50 then (l, false)
    else
      let l := dswap l i (i - 1)
      let l := if 2 ≤ i - a then shiftLeftGo lt l (i - 1) else l
      let l := if 2 ≤ b - i then shiftRightGo lt b l (i + 1) b else l
      almostSortGo lt a b l i steps

/-- partition_func upward scan: while i <= j and data[i] < pivot. -/
def scanLtGo [Inhabited α] (lt : α → α → Bool) (l : List α) (a j : Nat) : Nat → Nat → Nat
  | i, 0 => i
  | i, fuel + 1 =>
    if i ≤ j && lt (dget l i) (dget l a) then scanLtGo lt l a j (i + 1) fuel else i

/-- partition_func downward scan: while i <= j and not data[j] < pivot. -/
def scanGeGo [Inhabited α] (lt : α → α → Bool) (l : List α) (a i : Nat) : Nat → Nat → Nat
  | j, 0 => j
  | j, fuel + 1 =>
    if i ≤ j && ! lt (dget l j) (dget l a) then scanGeGo lt l a i (j - 1) fuel else j

/-- Main loop of partition_func. -/
def partLoopGo [Inhabited α] (lt : α → α → Bool) (a : Nat) :
    List α → Nat → Nat → Nat → List α × Nat × Nat
  | l, i, j, 0 => (l, i, j)
  | l, i, j, fuel + 1 =>
    let i := scanLtGo lt l a j i (j + 2)
    let j := scanGeGo lt l a i j (j + 2)
    if j < i then (l, i, j)
    else partLoopGo lt a (dswap l i j) (i + 1) (j - 1) fuel

/-- partition_func(data, a, b, pivot): returns the data, the new pivot
position and whether the range was already partitioned. -/
def partitionGo [Inhabited α] (lt : α → α → Bool) (l : List α) (a b pivot : Nat) :
    List α × Nat × Bool :=
  let l := dswap l a pivot
  let i := a + 1
  let j := b - 1
  let i := scanLtGo lt l a j i b
  let j := scanGeGo lt l a i j b
  if j < i then (dswap l j a, j, true)
  else
    let l := dswap l i j
    let res := partLoopGo lt a l (i + 1) (j - 1) b
    (dswap res.1 res.2.2 a, res.2.2, false)

/-- partitionEqual_func upward scan: while i <= j and not pivot < data[i]. -/
def scanLeGo [Inhabited α] (lt : α → α → Bool) (l : List α) (a j : Nat) : Nat → Nat → Nat
  | i, 0 => i
  | i, fuel + 1 =>
    if i ≤ j && ! lt (dget l a) (dget l i) then scanLeGo lt l a j (i + 1) fuel else i

/-- partitionEqual_func downward scan: while i <= j and pivot < data[j]. -/
def scanGtGo [Inhabited α] (lt : α → α → Bool) (l : List α) (a i : Nat) : Nat → Nat → Nat
  | j, 0 => j
  | j, fuel + 1 =>
    if i ≤ j && lt (dget l a) (dget l j) then scanGtGo lt l a i (j - 1) fuel else j

/-- Main loop of partitionEqual_func. -/
def partEqLoopGo [Inhabited α] (lt : α → α → Bool) (a : Nat) :
    List α → Nat → Nat → Nat → List α × Nat × Nat
  | l, i, j, 0 => (l, i, j)
  | l, i, j, fuel + 1 =>
    let i := scanLeGo lt l a j i (j + 2)
    let j := scanGtGo lt l a i j (j + 2)
    if j < i then (l, i, j)
    else partEqLoopGo lt a (dswap l i j) (i + 1) (j - 1) fuel

/-- partitionEqual_func(data, a, b, pivot): skip elements equal to the
pivot, returning the first index past them. -/
def partitionEqGo [Inhabited α] (lt : α → α → Bool) (l : List α) (a b pivot : Nat) :
    List α × Nat :=
  let l := dswap l a pivot
  let res := partEqLoopGo lt a l (a + 1) (b - 1) b
  (res.1, res.2.2 + 1)

/-- Bool test for the increasing hint. -/
def hintIsInc : SortHint → Bool
  | SortHint.increasing => true
  | _ => false

/-- Bool test for the decreasing hint. -/
def hintIsDec : SortHint → Bool
  | SortHint.decreasing => true
  | _ => false

/-- pdqsort_func.  The Go outer for-loop becomes a tail call with fuel-1
and the loop state (a, b, limit, wasBalanced, wasPartitioned); a Go
recursive call becomes a call with fuel-1 and fresh loop state
(true, true).  Fuel strictly larger than (b - a) + limit is never
exhausted since every iteration or call shrinks the range. -/
def pdqsortGo [Inhabited α] (lt : α → α → Bool) :
    Nat → List α → Nat → Nat → Nat → Bool → Bool → List α
  | 0, l, _, _, _, _, _ => l
  | fuel + 1, l, a, b, limit, wasBalanced, wasPartitioned =>
    let length := b - a
    if length ≤ 12 then insertionSortRange lt l a b
    else if limit = 0 then heapSortGo lt l a b
    else
      let l1 := if ! wasBalanced then breakPatternsGo l a b else l
      let limit1 := if ! wasBalanced then limit - 1 else limit
      let cp := choosePivotGo lt l1 a b
      let doRev := hintIsDec cp.2
      let l2 := if doRev then reverseRangeGo l1 a b else l1
      let pivot := if doRev then (b - 1) - (cp.1 - a) else cp.1
      let hint := if doRev then SortHint.increasing else cp.2
      let pa :=
        if wasBalanced && wasPartitioned && hintIsInc hint then
          almostSortGo lt a b l2 (a + 1) 5
        else (l2, false)
      let l3 := pa.1
      if pa.2 then l3
      else if 0 < a && ! lt (dget l3 (a - 1)) (dget l3 pivot) then
        let pe := partitionEqGo lt l3 a b pivot
        pdqsortGo lt fuel pe.1 pe.2 b limit1 wasBalanced wasPartitioned
      else
        let pt := partitionGo lt l3 a b pivot
        let l4 := pt.1
        let mid := pt.2.1
        let leftLen := mid - a
        let rightLen := b - mid
        let balanceThreshold := length / 8
        let newBalanced := decide (balanceThreshold ≤ min leftLen rightLen)
        if leftLen < rightLen then
          let l5 := pdqsortGo lt fuel l4 a mid limit1 true true
          pdqsortGo lt fuel l5 (mid + 1) b limit1 newBalanced pt.2.2
        else
          let l5 := pdqsortGo lt fuel l4 (mid + 1) b limit1 true true
          pdqsortGo lt fuel l5 a mid limit1 newBalanced pt.2.2

/-- sort.Slice(x, less): limit = bits.Len(length), then pdqsort over the
whole range. -/
def sortSliceGo [Inhabited α] (lt : α → α → Bool) (l : List α) : List α :=
  pdqsortGo lt (l.length + bitsLen l.length + 2) l 0 l.length (bitsLen l.length) true true

/-- The comparison closure passed to sort.Slice in fuzzy.Candidates
(fuzzy.go:57): scores[i].Score > scores[j].Score. -/
def resLt (x y : Result) : Bool := decide (y.score < x.score)

/-- fuzzy.Candidates (fuzzy.go:44-59): trim the query (empty query gives
nil), collect the positive best scores in entity order, sort with
sort.Slice. -/
def candidates (query : String) (idx : List Index) : List Result :=
  let q := String.mk (goTrimSpace query.toList)
  if q = "" then []
  else sortSliceGo resLt (preScores q idx)

/-!
## Canonical model, adapters, app-level apply (config.go, adapters/\*, app/apply.go)
-/

/-- Go `map[string]V`, modelled as a key-sorted association list.
json.Marshal serializes Go maps with sorted keys, so this canonical form
makes value equality coincide with byte equality of the serialized maps. -/
abbrev SMap (V : Type) : Type := List (String × V)

/-- Map update m[k] = v, keeping keys sorted. -/
def smInsert (k : String) (v : V) : SMap V → SMap V
  | [] => [(k, v)]
  | (k2, v2) :: rest =>
    if k = k2 then (k, v) :: rest
    else if k < k2 then (k, v) :: (k2, v2) :: rest
    else (k2, v2) :: smInsert k v rest

/-- Map read m[k]. -/
def smLookup (k : String) : SMap V → Option V
  | [] => none
  | (k2, v) :: rest => if k = k2 then some v else smLookup k rest

/-- The `_, ok := m[k]` test. -/
def smMem (k : String) (m : SMap V) : Bool := (smLookup k m).isSome

/-- config.HealthSpec (internal/config/config.go).  The Go field `Type`
is called `ctype` here.  TimeoutMs and Retries are Go ints. -/
structure HealthSpec where
  ctype : String
  url : String
  timeoutMs : Int
  retries : Int
deriving DecidableEq, Repr, Inhabited

/-- config.PolicySpec. -/
structure PolicySpec where
  autoDisable : Bool
  failureThreshold : Int
  windowHours : Int
  cooldownHours : Int
deriving DecidableEq, Repr, Inhabited

/-- config.Server. -/
structure Server where
  name : String
  aliases : List String
  tags : List String
  command : String
  args : List String
  env : SMap String
  transport : String
  enabled : Bool
  health : Option HealthSpec
  policy : Option PolicySpec
deriving DecidableEq, Repr, Inhabited

/-- config.Canonical restricted to the fields the reconciliation code
reads (Meta carries only a version string and a timestamp, which no
claim-relevant code path consults). -/
structure Canonical where
  servers : List Server
  profiles : SMap (List String)
deriving DecidableEq, Repr, Inhabited

/-- A client config file abstracted by what os.ReadFile + json.Unmarshal
observe of it: absent, present but not unmarshalable (`malformed`), or
carrying a parsed value. -/
inductive FileData (σ : Type) where
  | absent
  | malformed
  | stored (val : σ)
deriving DecidableEq, Repr, Inhabited

/-- claude.ClaudeServer (claude.go:20-24). -/
structure ClaudeServer where
  command : String
  args : List String
  env : SMap String
deriving DecidableEq, Repr, Inhabited

/-- claude.ClaudeConfig (claude.go:16-18). -/
structure ClaudeConfig where
  mcpServers : SMap ClaudeServer
deriving DecidableEq, Repr, Inhabited

/-- The observable filesystem state of one claude client: the config
file, the backup copies made so far, and how many times the config file
has been written. -/
structure ClaudeFS where
  file : FileData ClaudeConfig
  backups : List (FileData ClaudeConfig)
  writes : Nat
deriving DecidableEq, Repr, Inhabited

/-- cline.ClineServer (cline.go:26-30). -/
structure ClineServer where
  command : String
  args : List String
  env : SMap String
deriving DecidableEq, Repr, Inhabited

/-- cline.ClineConfig (cline.go:22-24). -/
structure ClineConfig where
  mcpServers : SMap ClineServer
deriving DecidableEq, Repr, Inhabited

/-- Observable filesystem state of the cline client. -/
structure ClineFS where
  file : FileData ClineConfig
  backups : List (FileData ClineConfig)
  writes : Nat
deriving DecidableEq, Repr, Inhabited

/-- claude.Adapter.Load (claude.go:44-55): a missing file yields the
empty config; bytes that json.Unmarshal rejects yield the error; a nil
MCPServers map becomes the empty map (the representation here has no nil
maps). -/
def claudeLoad : FileData ClaudeConfig → Except String ClaudeConfig
  | FileData.absent => Except.ok { mcpServers := [] }
  | FileData.malformed => Except.error "unmarshal"
  | FileData.stored c => Except.ok c

/-- cline.Adapter.Load (cline.go:84-110): a missing file AND unparsable
bytes both yield the empty config. -/
def clineLoad : FileData ClineConfig → Except String ClineConfig
  | FileData.absent => Except.ok { mcpServers := [] }
  | FileData.malformed => Except.ok { mcpServers := [] }
  | FileData.stored c => Except.ok c

/-- warp.WarpServer. -/
structure WarpServer where
  command : String
  args : List String
  env : SMap String
deriving DecidableEq, Repr, Inhabited

/-- warp.WarpConfig (field mcp_servers). -/
structure WarpConfig where
  mcpServers : SMap WarpServer
deriving DecidableEq, Repr, Inhabited

/-- warp.Adapter.Load: like cline, unparsable bytes yield the empty
config rather than an error. -/
def warpLoad : FileData WarpConfig → Except String WarpConfig
  | FileData.absent => Except.ok { mcpServers := [] }
  | FileData.malformed => Except.ok { mcpServers := [] }
  | FileData.stored c => Except.ok c

/-- A JSON value, for the adapters that parse their settings file into
map[string]interface. -/
inductive Jx where
  | jstr (s : String)
  | jnum (n : Int)
  | jbool (b : Bool)
  | jnull
  | jarr (xs : List Jx)
  | jobj (kvs : List (String × Jx))

/-- Go map index rawConfig[k] for a parsed JSON object. -/
def jlookup (k : String) : List (String × Jx) → Option Jx
  | [] => none
  | (k2, v) :: rest => if k = k2 then some v else jlookup k rest

/-- vscode.VSCodeServer. -/
structure VSCodeServer where
  command : String
  args : List String
  env : List (String × String)

/-- vscode.VSCodeConfig: the extracted mcp.servers map plus every other
top-level key preserved verbatim. -/
structure VSCodeConfig where
  mcpServers : List (String × VSCodeServer)
  other : List (String × Jx)

/-- Per-server extraction in vscode.Adapter.Load: command if it is a
string, args keeping only string entries (non-strings become the zero
value ""), env keeping only string-valued keys. -/
def vsExtractServer (kvs : List (String × Jx)) : VSCodeServer where
  command :=
    match jlookup "command" kvs with
    | some (Jx.jstr s) => s
    | _ => ""
  args :=
    match jlookup "args" kvs with
    | some (Jx.jarr xs) =>
      xs.map (fun j => match j with | Jx.jstr s => s | _ => "")
    | _ => []
  env :=
    match jlookup "env" kvs with
    | some (Jx.jobj es) =>
      es.filterMap (fun kv => match kv.2 with | Jx.jstr s => some (kv.1, s) | _ => none)
    | _ => []

/-- vscode.Adapter.Load (vscode.go): missing file gives the empty state;
bytes json.Unmarshal rejects give the error; otherwise mcp.servers is
extracted (non-object entries skipped) and all other keys preserved. -/
def vscodeLoad : FileData (List (String × Jx)) → Except String VSCodeConfig
  | FileData.absent => Except.ok { mcpServers := [], other := [] }
  | FileData.malformed => Except.error "unmarshal"
  | FileData.stored raw =>
    let mcp :=
      match jlookup "mcp.servers" raw with
      | some (Jx.jobj servers) =>
        servers.filterMap (fun kv =>
          match kv.2 with
          | Jx.jobj sm => some (kv.1, vsExtractServer sm)
          | _ => none)
      | _ => []
    Except.ok { mcpServers := mcp, other := raw.filter (fun kv => kv.1 ≠ "mcp.servers") }

/-- cursor.CursorServer. -/
structure CursorServer where
  command : String
  args : List String
  env : List (String × String)

/-- cursor.CursorConfig. -/
structure CursorConfig where
  mcpServers : List (String × CursorServer)
  other : List (String × Jx)

/-- Per-server extraction in cursor.Adapter.Load (textually parallel to
the vscode adapter in the source). -/
def cuExtractServer (kvs : List (String × Jx)) : CursorServer where
  command :=
    match jlookup "command" kvs with
    | some (Jx.jstr s) => s
    | _ => ""
  args :=
    match jlookup "args" kvs with
    | some (Jx.jarr xs) =>
      xs.map (fun j => match j with | Jx.jstr s => s | _ => "")
    | _ => []
  env :=
    match jlookup "env" kvs with
    | some (Jx.jobj es) =>
      es.filterMap (fun kv => match kv.2 with | Jx.jstr s => some (kv.1, s) | _ => none)
    | _ => []

/-- cursor.Adapter.Load (cursor.go): missing file gives the empty state;
unparsable bytes give the error. -/
def cursorLoad : FileData (List (String × Jx)) → Except String CursorConfig
  | FileData.absent => Except.ok { mcpServers := [], other := [] }
  | FileData.malformed => Except.error "unmarshal"
  | FileData.stored raw =>
    let mcp :=
      match jlookup "mcp.servers" raw with
      | some (Jx.jobj servers) =>
        servers.filterMap (fun kv =>
          match kv.2 with
          | Jx.jobj sm => some (kv.1, cuExtractServer sm)
          | _ => none)
      | _ => []
    Except.ok { mcpServers := mcp, other := raw.filter (fun kv => kv.1 ≠ "mcp.servers") }

/-- Classification of an os.Stat call: the path exists, does not exist
(os.IsNotExist), or stat failed for another reason. -/
inductive StatR where
  | found
  | missing
  | errored
deriving DecidableEq, Repr, Inhabited

/-- What the filesystem holds at a client's location: the stat result of
the config file itself and of its containing directory.  Each Detect
implementation consults only part of this view. -/
structure FsView where
  fileStat : StatR
  dirStat : StatR
deriving DecidableEq, Repr, Inhabited

/-- claude.Adapter.Detect (claude.go:36-42): os.Stat on the config FILE;
nil error means detected, os.IsNotExist means not detected, any other
stat failure is an error.  The directory is never consulted. -/
def claudeDetect (v : FsView) : Except String Bool :=
  match v.fileStat with
  | StatR.found => Except.ok true
  | StatR.missing => Except.ok false
  | StatR.errored => Except.error "stat"

/-- cursor.Adapter.Detect: os.Stat on the settings FILE (same shape as
the claude adapter). -/
def cursorDetect (v : FsView) : Except String Bool :=
  match v.fileStat with
  | StatR.found => Except.ok true
  | StatR.missing => Except.ok false
  | StatR.errored => Except.error "stat"

/-- vscode.Adapter.Detect: os.Stat on the settings FILE (same shape as
the claude adapter). -/
def vscodeDetect (v : FsView) : Except String Bool :=
  match v.fileStat with
  | StatR.found => Except.ok true
  | StatR.missing => Except.ok false
  | StatR.errored => Except.error "stat"

/-- cline.Adapter.Detect (cline.go:65-82): os.Stat on the parent
DIRECTORY of the config path; the config file itself need not exist. -/
def clineDetect (v : FsView) : Except String Bool :=
  match v.dirStat with
  | StatR.found => Except.ok true
  | StatR.missing => Except.ok false
  | StatR.errored => Except.error "stat"

/-- What warp.Adapter.Detect consults: the config directory, runtime.GOOS
and /Applications/Warp.app. -/
structure WarpView where
  dirStat : StatR
  goos : String
  appStat : StatR
deriving DecidableEq, Repr, Inhabited

/-- warp.Adapter.Detect: the config directory, or on macOS the installed
application bundle; the config file itself is never consulted. -/
def warpDetect (v : WarpView) : Except String Bool :=
  match v.dirStat with
  | StatR.found => Except.ok true
  | StatR.missing =>
    if v.goos = "darwin" ∧ v.appStat = StatR.found then Except.ok true
    else Except.ok false
  | StatR.errored => Except.error "stat"

/-- The desired set built by every adapter Apply (claude.go:81-86):
iterate canon.Servers, recording each enabled server under its name. -/
def enabledMap (canon : Canonical) : SMap Server :=
  canon.servers.foldl (fun m s => if s.enabled then smInsert s.name s m else m) []

/-- Conversion of a canonical server to the claude entry shape
(claude.go:97-101). -/
def toClaudeServer (s : Server) : ClaudeServer :=
  { command := s.command, args := s.args, env := s.env }

/-- Conversion of a canonical server to the cline entry shape
(cline.go:174-178). -/
def toClineServer (s : Server) : ClineServer :=
  { command := s.command, args := s.args, env := s.env }

/-- claude.Adapter.Backup (claude.go:57-67): nothing to do when the file
is absent; otherwise the file's bytes (whatever they parse to) are copied
to a new timestamped sibling. -/
def claudeBackup (fs : ClaudeFS) : ClaudeFS :=
  match fs.file with
  | FileData.absent => fs
  | f => { fs with backups := fs.backups ++ [f] }

/-- cline.Adapter.Backup (cline.go:112-131), same behaviour. -/
def clineBackup (fs : ClineFS) : ClineFS :=
  match fs.file with
  | FileData.absent => fs
  | f => { fs with backups := fs.backups ++ [f] }

/-- diff.GenerateColorDiff as observed by its callers: literally
"No changes" when the inputs are equal, and otherwise text beginning with
the colored "--- before" / "+++ after" header, hence never the empty
string.  Callers only ever compare the result against "" or display it,
so the omitted tail of the real diff text is irrelevant to every claim. -/
def genColorDiff [DecidableEq β] (before after : β) : String :=
  if before = after then "No changes" else "--- before\n+++ after\n"

/-- claude.Adapter.Apply (claude.go:76-112): load, build the merged map
(current entries whose names are in the enabled set, overwritten by the
enabled canonical entries), marshal before/after, then UNCONDITIONALLY
back up and write.  Returns the state plus the before and after values
(whose equality is byte equality of the marshaled forms). -/
def claudeAdapterApply (fs : ClaudeFS) (canon : Canonical) :
    Except String (ClaudeFS × ClaudeConfig × ClaudeConfig) := do
  let cc ← claudeLoad fs.file
  let before := cc
  let enabled := enabledMap canon
  let kept : SMap ClaudeServer := cc.mcpServers.filter (fun kv => smMem kv.1 enabled)
  let newCfg : ClaudeConfig :=
    { mcpServers := enabled.foldl (fun m kv => smInsert kv.1 (toClaudeServer kv.2) m) kept }
  let after := newCfg
  let fs := claudeBackup fs
  let fs := { fs with file := FileData.stored after, writes := fs.writes + 1 }
  return (fs, before, after)

/-- cline.Adapter.Apply (cline.go:148-204): same merge as the claude
adapter, diff via GenerateColorDiff, then unconditional backup, MkdirAll
(not observable here) and write. -/
def clineAdapterApply (fs : ClineFS) (canon : Canonical) :
    Except String (ClineFS × String) := do
  let cc ← clineLoad fs.file
  let before := cc
  let enabled := enabledMap canon
  let kept : SMap ClineServer := cc.mcpServers.filter (fun kv => smMem kv.1 enabled)
  let newCfg : ClineConfig :=
    { mcpServers := enabled.foldl (fun m kv => smInsert kv.1 (toClineServer kv.2) m) kept }
  let diffStr := genColorDiff before newCfg
  let fs := clineBackup fs
  let fs := { fs with file := FileData.stored newCfg, writes := fs.writes + 1 }
  return (fs, diffStr)

/-- How one app-level apply run ends. -/
inductive ApplyOutcome where
  | noChanges
  | declined
  | applied
deriving DecidableEq, Repr, Inhabited

/-- The normalization applied to the confirmation answer
(strings.ToLower(strings.TrimSpace(response))). -/
def normAnswer (s : String) : String := String.mk (goToLower (goTrimSpace s.toList))

/-- App.applyToClaude (app/apply.go:126-222): detect (the claude adapter
stats the config file, so detection holds iff the file is present), load,
preserve entries whose name matches NO canonical server, add the enabled
canonical servers, and only then: stop with "no changes" if the marshaled
before and after are byte-equal; otherwise ask for confirmation unless
autoApprove, and only on "y"/"yes" back up and write. -/
def applyToClaude (fs : ClaudeFS) (canon : Canonical) (autoApprove : Bool)
    (answer : String) : Except String (ClaudeFS × ApplyOutcome) := do
  if fs.file = FileData.absent then
    Except.error "Claude Desktop not detected"
  else do
    let cc ← claudeLoad fs.file
    let unmanaged : SMap ClaudeServer :=
      cc.mcpServers.filter (fun kv => ! canon.servers.any (fun s => s.name = kv.1))
    let newConfig : ClaudeConfig :=
      { mcpServers :=
          canon.servers.foldl
            (fun m s => if s.enabled then smInsert s.name (toClaudeServer s) m else m)
            unmanaged }
    if cc = newConfig then
      Except.ok (fs, ApplyOutcome.noChanges)
    else if autoApprove = false ∧ normAnswer answer ≠ "y" ∧ normAnswer answer ≠ "yes" then
      Except.ok (fs, ApplyOutcome.declined)
    else
      let fs := claudeBackup fs
      let fs := { fs with file := FileData.stored newConfig, writes := fs.writes + 1 }
      Except.ok (fs, ApplyOutcome.applied)

/-- App.applyToGenericClient instantiated with the cline adapter
(app/apply.go:348-410): detect, then call adapter.Apply — which has
ALREADY backed up and written the file — then compare the returned diff
text against "" and possibly ask for confirmation.  Declining changes
nothing back. -/
def applyToGenericCline (detected : Bool) (fs : ClineFS) (canon : Canonical)
    (autoApprove : Bool) (answer : String) : Except String (ClineFS × ApplyOutcome) := do
  if detected = false then
    Except.error "Cline not detected"
  else do
    let (fs, diffStr) ← clineAdapterApply fs canon
    if diffStr = "" then
      Except.ok (fs, ApplyOutcome.noChanges)
    else if autoApprove = false ∧ normAnswer answer ≠ "y" ∧ normAnswer answer ≠ "yes" then
      Except.ok (fs, ApplyOutcome.declined)
    else
      Except.ok (fs, ApplyOutcome.applied)

/-!
## Health engine (internal/health/health.go)
-/

/-- health.CheckResult restricted to its data fields; Duration and
Timestamp are wall-clock quantities outside this model.  Status is a
string in Go (type CheckStatus string), so the zero value is "". -/
structure CheckResult where
  serverName : String
  ctype : String
  status : String
  message : String
deriving DecidableEq, Repr, Inhabited

/-- The zero value of health.CheckResult. -/
def zeroResult : CheckResult := { serverName := "", ctype := "", status := "", message := "" }

/-- The default spec used when a server has no Health entry
(health.go:62-69). -/
def defaultHealthSpec : HealthSpec :=
  { ctype := "stdio", url := "", timeoutMs := 5000, retries := 1 }

/-- The keys of the Manager's checker map (health.go:46-54). -/
def checkersList : List String := ["stdio", "http", "tcp"]

/-- Result of the retry loop in CheckServer: either a retry delay found
the context already cancelled (the synthetic timeout return at
health.go:103-111), or the loop finished and reports the last attempt. -/
inductive LoopOut where
  | cancelled (attemptsBefore : Nat) (res : CheckResult)
  | completed (attemptsMade : Nat) (res : CheckResult)
deriving DecidableEq, Repr, Inhabited

/-- The retry loop of CheckServer (health.go:98-120).  `attempts k` is
the result of the k-th call of checker.Check (an oracle for the process /
network interaction), `cancelledAt k` says whether the context was
already done at the delay preceding attempt k (only consulted for k > 0).
The loop stops early on a healthy attempt; the fuel is the normalized
retry count, so a non-positive count makes zero attempts and reports the
zero-value lastResult, exactly as the Go loop does. -/
def checkLoop (server : Server) (spec : HealthSpec) (attempts : Nat → CheckResult)
    (cancelledAt : Nat → Bool) : Nat → Nat → CheckResult → LoopOut
  | i, 0, last => LoopOut.completed i last
  | i, fuel + 1, last =>
    if 0 < i ∧ cancelledAt i = true then
      LoopOut.cancelled i
        { serverName := server.name, ctype := spec.ctype, status := "timeout",
          message := "health check timed out during retries" }
    else
      let r := attempts i
      if r.status = "healthy" then LoopOut.completed (i + 1) r
      else checkLoop server spec attempts cancelledAt (i + 1) fuel r

/-- What Manager.CheckServer did: rejected an unknown check type, or ran
the loop with the recorded effective type, timeout and retry count. -/
inductive CheckOutcome where
  | unknownType (res : CheckResult)
  | ran (ctype : String) (effTimeoutMs : Int) (effRetries : Int) (out : LoopOut)
deriving DecidableEq, Repr, Inhabited

/-- Manager.CheckServer (health.go:57-125): fall back to the default
stdio spec when Health is nil, reject unknown checker types, normalize a
zero timeout to 5000ms and a zero retry count to 1, then run the retry
loop. -/
def checkServer (server : Server) (attempts : Nat → CheckResult)
    (cancelledAt : Nat → Bool) : CheckOutcome :=
  let spec := server.health.getD defaultHealthSpec
  if checkersList.contains spec.ctype then
    let timeout : Int := if spec.timeoutMs = 0 then 5000 else spec.timeoutMs
    let retries : Int := if spec.retries = 0 then 1 else spec.retries
    CheckOutcome.ran spec.ctype timeout retries
      (checkLoop server spec attempts cancelledAt 0 retries.toNat zeroResult)
  else
    CheckOutcome.unknownType
      { serverName := server.name, ctype := spec.ctype, status := "error",
        message := "unknown health check type: " ++ spec.ctype }

/-- Attempts made by the loop. -/
def loopAttempts : LoopOut → Nat
  | LoopOut.cancelled i _ => i
  | LoopOut.completed i _ => i

/-- Result reported by the loop. -/
def loopResult : LoopOut → CheckResult
  | LoopOut.cancelled _ r => r
  | LoopOut.completed _ r => r

/-!
## Concrete instances used by the claim theorems
-/

/-- 13 entities whose best scores against the query "a" are twelve 78s
followed by one 79 (name lengths 3 and 2, each containing "a"). -/
def ceIdx : List Index :=
  [⟨"bba", [], []⟩, ⟨"cba", [], []⟩, ⟨"dba", [], []⟩, ⟨"eba", [], []⟩,
   ⟨"fba", [], []⟩, ⟨"gba", [], []⟩, ⟨"hba", [], []⟩, ⟨"iba", [], []⟩,
   ⟨"jba", [], []⟩, ⟨"kba", [], []⟩, ⟨"lba", [], []⟩, ⟨"mba", [], []⟩,
   ⟨"ba", [], []⟩]

/-- Three entities for the witness of the amended C6 statement. -/
def wIdx : List Index :=
  [⟨"bba", [], []⟩, ⟨"cba", [], []⟩, ⟨"ba", [], []⟩]

/-- An unmanaged claude entry named "foo". -/
def c1srv : ClaudeServer := { command := "cmd", args := [], env := [] }

/-- A claude config file holding only the unmanaged entry "foo". -/
def c1fs : ClaudeFS :=
  { file := FileData.stored { mcpServers := [("foo", c1srv)] }, backups := [], writes := 0 }

/-- A canonical document with no servers at all. -/
def c1canon : Canonical := { servers := [], profiles := [] }

/-- An unmanaged cline entry named "keep". -/
def c2srv : ClineServer := { command := "x", args := [], env := [] }

/-- A cline config file holding only the unmanaged entry "keep". -/
def c2fs : ClineFS :=
  { file := FileData.stored { mcpServers := [("keep", c2srv)] }, backups := [], writes := 0 }

/-- A canonical document with one enabled server "srv". -/
def c2canon : Canonical :=
  { servers := [{ name := "srv", aliases := [], tags := [], command := "c", args := [],
                  env := [], transport := "", enabled := true, health := none, policy := none }],
    profiles := [] }

/-- A claude config file whose content already equals what an apply run
would produce for the empty canonical document. -/
def c3fs : ClaudeFS :=
  { file := FileData.stored { mcpServers := [] }, backups := [], writes := 0 }

/-- A canonical document with no servers, for the C3 run. -/
def c3canon : Canonical := { servers := [], profiles := [] }

/-- A server with an explicit health spec asking for retries = -1. -/
def c8srv : Server :=
  { name := "s", aliases := [], tags := [], command := "c", args := [], env := [],
    transport := "", enabled := true,
    health := some { ctype := "stdio", url := "", timeoutMs := 0, retries := -1 },
    policy := none }

/-- A server with two retries for the C8 witness. -/
def w8srv : Server :=
  { name := "s", aliases := [], tags := [], command := "c", args := [], env := [],
    transport := "", enabled := true,
    health := some { ctype := "stdio", url := "", timeoutMs := 250, retries := 2 },
    policy := none }

/-- An always-unhealthy attempt oracle. -/
def unhealthyRes : CheckResult :=
  { serverName := "s", ctype := "stdio", status := "unhealthy", message := "exit status 1" }

/-- The attempt outcome used by the C9 witness oracle. -/
def unhealthyRes9 : CheckResult :=
  { serverName := "n", ctype := "stdio", status := "unhealthy", message := "exit status 1" }

/-- A server without a health spec, for the C9 witness. -/
def c9srv : Server :=
  { name := "n", aliases := [], tags := [], command := "c", args := [], env := [],
    transport := "", enabled := true, health := none, policy := none }

/-- A name that contains "a" and is 81 characters longer than "a",
with no whitespace. -/
def c10long : String := String.mk ('a' :: List.replicate 81 'b')

/-- A name that raw-contains "a", is 80 bytes longer, but trims back down
to "a". -/
def c10pad : String := String.mk ('a' :: List.replicate 80 ' ')

/-!
## Verification-layer predicates for the sortedness proof of the
sort.Slice embedding.
-/

/-- Element-score shorthand for the ordering invariants. -/
def dsc (l : List Result) (k : Nat) : Int := (dget l k).score

/-- The subrange [a, b) is sorted by non-increasing score. -/
def SortedSeg (l : List Result) (a b : Nat) : Prop :=
  ∀ i j, a ≤ i → i < j → j < b → dsc l j ≤ dsc l i

/-- A range-local rearrangement: the length is kept, positions outside
[a, b) are unchanged, and every value inside [a, b) comes from some
position inside [a, b) of the original data. -/
def SegOp [Inhabited α] (l l2 : List α) (a b : Nat) : Prop :=
  l2.length = l.length ∧
  (∀ k, k < a ∨ b ≤ k → dget l2 k = dget l k) ∧
  (∀ k, a ≤ k → k < b → ∃ k2, a ≤ k2 ∧ k2 < b ∧ dget l2 k = dget l k2)

/-- The heap-order descendant relation: `SubOf root c` holds when c lies in
the binary-heap subtree rooted at root (parent of c is (c-1)/2). -/
inductive SubOf (root : Nat) : Nat → Prop where
  | base : SubOf root root
  | step : ∀ c, 0 < c → SubOf root ((c - 1) / 2) → SubOf root c

/-!
## Theorems.  First the membership (subset) lemmas for the sort.Slice
embedding: every element of the sorted output is an element of the input.
-/

theorem dget_mem [Inhabited α] (l : List α) (i : Nat) (h : i < l.length) : dget l i ∈ l := by
  unfold dget
  have he : l.getD i default = l[i] := by
    simp [List.getD_eq_getElem?_getD, List.getElem?_eq_getElem h]
  rw [he]
  exact List.getElem_mem h

theorem dswap_subset [Inhabited α] (l : List α) (i j : Nat) :
    ∀ x ∈ dswap l i j, x ∈ l := by
  intro x hx
  unfold dswap at hx
  split at hx
  case isTrue h =>
    have hij : i < l.length ∧ j < l.length := by simpa using h
    rcases List.mem_or_eq_of_mem_set hx with hx2 | rfl
    · rcases List.mem_or_eq_of_mem_set hx2 with hx3 | rfl
      · exact hx3
      · exact dget_mem l j hij.2
    · exact dget_mem l i hij.1
  case isFalse => exact hx

theorem goInsert_mem (lt : α → α → Bool) (y : α) :
    ∀ (l : List α) (x : α), x ∈ goInsert lt y l → x = y ∨ x ∈ l := by
  intro l
  induction l with
  | nil => intro x hx; simp [goInsert] at hx; exact Or.inl hx
  | cons z zs ih =>
    intro x hx
    unfold goInsert at hx
    split at hx
    · rcases List.mem_cons.mp hx with h | h
      · exact Or.inl h
      · exact Or.inr h
    · rcases List.mem_cons.mp hx with h | h
      · exact Or.inr (List.mem_cons.mpr (Or.inl h))
      · rcases ih x h with h2 | h2
        · exact Or.inl h2
        · exact Or.inr (List.mem_cons.mpr (Or.inr h2))

theorem insFold_mem (lt : α → α → Bool) :
    ∀ (l acc : List α) (x : α),
      x ∈ l.foldl (fun acc y => goInsert lt y acc) acc → x ∈ acc ∨ x ∈ l := by
  intro l
  induction l with
  | nil => intro acc x hx; exact Or.inl hx
  | cons z zs ih =>
    intro acc x hx
    simp only [List.foldl_cons] at hx
    rcases ih (goInsert lt z acc) x hx with h | h
    · rcases goInsert_mem lt z acc x h with h2 | h2
      · exact Or.inr (List.mem_cons.mpr (Or.inl h2))
      · exact Or.inl h2
    · exact Or.inr (List.mem_cons.mpr (Or.inr h))

theorem insSortList_subset (lt : α → α → Bool) (l : List α) :
    ∀ x ∈ insSortList lt l, x ∈ l := by
  intro x hx
  rcases insFold_mem lt l [] x hx with h | h
  · cases h
  · exact h

theorem sliceRange_subset (l : List α) (a b : Nat) :
    ∀ x ∈ sliceRange l a b, x ∈ l := by
  intro x hx
  exact List.drop_subset a l (List.take_subset _ _ hx)

theorem spliceRange_subset (l mid : List α) (a b : Nat) :
    ∀ x ∈ spliceRange l a b mid, x ∈ l ∨ x ∈ mid := by
  intro x hx
  unfold spliceRange at hx
  rcases List.mem_append.mp hx with h | h
  · rcases List.mem_append.mp h with h2 | h2
    · exact Or.inl (List.take_subset _ _ h2)
    · exact Or.inr h2
  · exact Or.inl (List.drop_subset _ _ h)

theorem insertionSortRange_subset [Inhabited α] (lt : α → α → Bool) (l : List α) (a b : Nat) :
    ∀ x ∈ insertionSortRange lt l a b, x ∈ l := by
  intro x hx
  unfold insertionSortRange at hx
  rcases spliceRange_subset l _ a b x hx with h | h
  · exact h
  · exact sliceRange_subset l a b x (insSortList_subset lt _ x h)

theorem siftDownGo_subset [Inhabited α] (lt : α → α → Bool) :
    ∀ (fuel : Nat) (l : List α) (root hi first : Nat),
      ∀ x ∈ siftDownGo lt fuel l root hi first, x ∈ l := by
  intro fuel
  induction fuel with
  | zero => intro l root hi first x hx; exact hx
  | succ fuel ih =>
    intro l root hi first x hx
    unfold siftDownGo at hx
    dsimp only at hx
    split at hx
    · exact hx
    · split at hx <;> split at hx
      · exact hx
      · exact dswap_subset l _ _ x (ih _ _ _ _ x hx)
      · exact hx
      · exact dswap_subset l _ _ x (ih _ _ _ _ x hx)

theorem heapBuildGo_subset [Inhabited α] (lt : α → α → Bool) (hi first : Nat) :
    ∀ (k : Nat) (l : List α), ∀ x ∈ heapBuildGo lt hi first k l, x ∈ l := by
  intro k
  induction k with
  | zero => intro l x hx; exact hx
  | succ k ih =>
    intro l x hx
    unfold heapBuildGo at hx
    exact siftDownGo_subset lt _ _ _ _ _ x (ih _ x hx)

theorem heapPopGo_subset [Inhabited α] (lt : α → α → Bool) (first : Nat) :
    ∀ (k : Nat) (l : List α), ∀ x ∈ heapPopGo lt first k l, x ∈ l := by
  intro k
  induction k with
  | zero => intro l x hx; exact hx
  | succ k ih =>
    intro l x hx
    unfold heapPopGo at hx
    exact dswap_subset l _ _ x (siftDownGo_subset lt _ _ _ _ _ x (ih _ x hx))

theorem heapSortGo_subset [Inhabited α] (lt : α → α → Bool) (l : List α) (a b : Nat) :
    ∀ x ∈ heapSortGo lt l a b, x ∈ l := by
  intro x hx
  unfold heapSortGo at hx
  exact heapBuildGo_subset lt _ _ _ _ x (heapPopGo_subset lt _ _ _ x hx)

theorem reverseRangeGo_subset (l : List α) (a b : Nat) :
    ∀ x ∈ reverseRangeGo l a b, x ∈ l := by
  intro x hx
  unfold reverseRangeGo at hx
  rcases spliceRange_subset l _ a b x hx with h | h
  · exact h
  · exact sliceRange_subset l a b x (List.mem_reverse.mp h)

theorem breakPatternsGo_subset [Inhabited α] (l : List α) (a b : Nat) :
    ∀ x ∈ breakPatternsGo l a b, x ∈ l := by
  intro x hx
  unfold breakPatternsGo at hx
  dsimp only at hx
  split at hx
  · exact dswap_subset l _ _ x (dswap_subset _ _ _ x (dswap_subset _ _ _ x hx))
  · exact hx

theorem shiftLeftGo_subset [Inhabited α] (lt : α → α → Bool) :
    ∀ (j : Nat) (l : List α), ∀ x ∈ shiftLeftGo lt l j, x ∈ l := by
  intro j
  induction j with
  | zero => intro l x hx; exact hx
  | succ j ih =>
    intro l x hx
    unfold shiftLeftGo at hx
    split at hx
    · exact hx
    · exact dswap_subset l _ _ x (ih _ x hx)

theorem shiftRightGo_subset [Inhabited α] (lt : α → α → Bool) (b : Nat) :
    ∀ (fuel j : Nat) (l : List α), ∀ x ∈ shiftRightGo lt b l j fuel, x ∈ l := by
  intro fuel
  induction fuel with
  | zero => intro j l x hx; exact hx
  | succ fuel ih =>
    intro j l x hx
    unfold shiftRightGo at hx
    split at hx
    · exact hx
    · split at hx
      · exact hx
      · exact dswap_subset l _ _ x (ih _ _ x hx)

theorem almostSortGo_subset [Inhabited α] (lt : α → α → Bool) (a b : Nat) :
    ∀ (steps i : Nat) (l : List α), ∀ x ∈ (almostSortGo lt a b l i steps).1, x ∈ l := by
  intro steps
  induction steps with
  | zero => intro i l x hx; exact hx
  | succ steps ih =>
    intro i l x hx
    unfold almostSortGo at hx
    dsimp only at hx
    split at hx
    · exact hx
    · split at hx
      · exact hx
      · have hx2 := ih _ _ x hx
        split at hx2
        · have hx3 := shiftRightGo_subset lt b _ _ _ x hx2
          split at hx3
          · exact dswap_subset l _ _ x (shiftLeftGo_subset lt _ _ x hx3)
          · exact dswap_subset l _ _ x hx3
        · split at hx2
          · exact dswap_subset l _ _ x (shiftLeftGo_subset lt _ _ x hx2)
          · exact dswap_subset l _ _ x hx2

theorem partLoopGo_subset [Inhabited α] (lt : α → α → Bool) (a : Nat) :
    ∀ (fuel i j : Nat) (l : List α), ∀ x ∈ (partLoopGo lt a l i j fuel).1, x ∈ l := by
  intro fuel
  induction fuel with
  | zero => intro i j l x hx; exact hx
  | succ fuel ih =>
    intro i j l x hx
    unfold partLoopGo at hx
    dsimp only at hx
    split at hx
    · exact hx
    · exact dswap_subset l _ _ x (ih _ _ _ x hx)

theorem partitionGo_subset [Inhabited α] (lt : α → α → Bool) (l : List α) (a b pivot : Nat) :
    ∀ x ∈ (partitionGo lt l a b pivot).1, x ∈ l := by
  intro x hx
  unfold partitionGo at hx
  dsimp only at hx
  split at hx
  · exact dswap_subset l _ _ x (dswap_subset _ _ _ x hx)
  · exact dswap_subset l _ _ x
      (dswap_subset _ _ _ x (partLoopGo_subset lt a _ _ _ _ x (dswap_subset _ _ _ x hx)))

theorem partEqLoopGo_subset [Inhabited α] (lt : α → α → Bool) (a : Nat) :
    ∀ (fuel i j : Nat) (l : List α), ∀ x ∈ (partEqLoopGo lt a l i j fuel).1, x ∈ l := by
  intro fuel
  induction fuel with
  | zero => intro i j l x hx; exact hx
  | succ fuel ih =>
    intro i j l x hx
    unfold partEqLoopGo at hx
    dsimp only at hx
    split at hx
    · exact hx
    · exact dswap_subset l _ _ x (ih _ _ _ x hx)

theorem partitionEqGo_subset [Inhabited α] (lt : α → α → Bool) (l : List α) (a b pivot : Nat) :
    ∀ x ∈ (partitionEqGo lt l a b pivot).1, x ∈ l := by
  intro x hx
  unfold partitionEqGo at hx
  exact dswap_subset l _ _ x (partEqLoopGo_subset lt a _ _ _ _ x hx)

set_option maxHeartbeats 2000000 in
theorem pdqsortGo_subset [Inhabited α] (lt : α → α → Bool) :
    ∀ (fuel : Nat) (l : List α) (a b limit : Nat) (wb wp : Bool),
      ∀ x ∈ pdqsortGo lt fuel l a b limit wb wp, x ∈ l := by
  intro fuel
  induction fuel with
  | zero => intro l a b limit wb wp x hx; exact hx
  | succ fuel ih =>
    intro l a b limit wb wp x hx
    unfold pdqsortGo at hx
    dsimp only at hx
    repeat (any_goals (split at hx))
    all_goals
      repeat
        first
        | exact hx
        | replace hx := insertionSortRange_subset lt _ _ _ x hx
        | replace hx := heapSortGo_subset lt _ _ _ x hx
        | replace hx := almostSortGo_subset lt _ _ _ _ _ x hx
        | replace hx := reverseRangeGo_subset _ _ _ x hx
        | replace hx := breakPatternsGo_subset _ _ _ x hx
        | replace hx := partitionEqGo_subset lt _ _ _ _ x hx
        | replace hx := partitionGo_subset lt _ _ _ _ x hx
        | replace hx := ih _ _ _ _ _ _ x hx
        | replace hx := dswap_subset _ _ _ x hx
        | dsimp only at hx

theorem sortSliceGo_subset [Inhabited α] (lt : α → α → Bool) (l : List α) :
    ∀ x ∈ sortSliceGo lt l, x ∈ l := by
  intro x hx
  unfold sortSliceGo at hx
  exact pdqsortGo_subset lt _ l 0 l.length _ true true x hx

/-!
## Order and stability of the insertion-sort path (candidate lists of at
most 12 entries; sort.Slice runs insertionSort_func directly on them).
-/

theorem resLt_true_iff (x y : Result) : resLt x y = true ↔ y.score < x.score := by
  simp [resLt]

theorem resLt_false_iff (x y : Result) : resLt x y = false ↔ x.score ≤ y.score := by
  simp [resLt]

theorem goInsert_pairwise (x : Result) :
    ∀ l : List Result, List.Pairwise (fun u v => v.score ≤ u.score) l →
      List.Pairwise (fun u v => v.score ≤ u.score) (goInsert resLt x l) := by
  intro l
  induction l with
  | nil => intro _; simp [goInsert]
  | cons y ys ih =>
    intro hp
    rcases List.pairwise_cons.mp hp with ⟨hy, hys⟩
    unfold goInsert
    split
    case isTrue hlt =>
      have hyx : y.score < x.score := (resLt_true_iff x y).mp hlt
      refine List.pairwise_cons.mpr ⟨?_, hp⟩
      intro z hz
      rcases List.mem_cons.mp hz with rfl | hz2
      · omega
      · have := hy z hz2; omega
    case isFalse hlt =>
      have hxy : x.score ≤ y.score := by
        have := (resLt_false_iff x y).mp (Bool.eq_false_iff.mpr (by simpa using hlt))
        omega
      refine List.pairwise_cons.mpr ⟨?_, ih hys⟩
      intro z hz
      rcases goInsert_mem resLt x ys z hz with rfl | hz2
      · exact hxy
      · exact hy z hz2

theorem goInsert_filter_score (v : Int) (x : Result) :
    ∀ l : List Result, List.Pairwise (fun u v => v.score ≤ u.score) l →
      (goInsert resLt x l).filter (fun r => r.score = v) =
        l.filter (fun r => r.score = v) ++ [x].filter (fun r => r.score = v) := by
  intro l
  induction l with
  | nil => simp [goInsert]
  | cons y ys ih =>
    intro hp
    rcases List.pairwise_cons.mp hp with ⟨hy, hys⟩
    unfold goInsert
    split
    case isTrue hlt =>
      have hyx : y.score < x.score := (resLt_true_iff x y).mp hlt
      by_cases hx : x.score = v
      · have hnil : (y :: ys).filter (fun r => r.score = v) = [] := by
          rw [List.filter_eq_nil_iff]
          intro z hz
          rcases List.mem_cons.mp hz with rfl | hz2
          · simp; omega
          · have := hy z hz2; simp; omega
        simp [List.filter_cons, hx, hnil]
      · simp [List.filter_cons, hx]
    case isFalse hlt =>
      have hrec := ih hys
      by_cases hy2 : y.score = v
      · simp [List.filter_cons, hy2, hrec]
      · simp [List.filter_cons, hy2, hrec]

theorem insFold_sorted_filter (v : Int) :
    ∀ (l acc : List Result), List.Pairwise (fun u v => v.score ≤ u.score) acc →
      List.Pairwise (fun u v => v.score ≤ u.score)
          (l.foldl (fun acc y => goInsert resLt y acc) acc) ∧
        (l.foldl (fun acc y => goInsert resLt y acc) acc).filter (fun r => r.score = v) =
          acc.filter (fun r => r.score = v) ++ l.filter (fun r => r.score = v) := by
  intro l
  induction l with
  | nil => intro acc hacc; exact ⟨hacc, by simp⟩
  | cons z zs ih =>
    intro acc hacc
    simp only [List.foldl_cons]
    have hz := goInsert_pairwise z acc hacc
    rcases ih (goInsert resLt z acc) hz with ⟨hp, hf⟩
    refine ⟨hp, ?_⟩
    rw [hf, goInsert_filter_score v z acc hacc]
    by_cases hzv : z.score = v
    · simp [List.filter_cons, hzv]
    · simp [List.filter_cons, hzv]

theorem insSortList_pairwise (l : List Result) :
    List.Pairwise (fun u v => v.score ≤ u.score) (insSortList resLt l) :=
  (insFold_sorted_filter 0 l [] List.Pairwise.nil).1

theorem insSortList_filter_score (v : Int) (l : List Result) :
    (insSortList resLt l).filter (fun r => r.score = v) = l.filter (fun r => r.score = v) := by
  have := (insFold_sorted_filter v l [] List.Pairwise.nil).2
  simpa [insSortList] using this

theorem sortSliceGo_small [Inhabited α] (lt : α → α → Bool) (l : List α)
    (h : l.length ≤ 12) : sortSliceGo lt l = insSortList lt l := by
  unfold sortSliceGo
  rw [show l.length + bitsLen l.length + 2 = (l.length + bitsLen l.length + 1) + 1 from rfl]
  unfold pdqsortGo
  dsimp only
  rw [if_pos (by simpa using h)]
  unfold insertionSortRange spliceRange sliceRange
  simp

theorem preScores_mem (q : String) (idx : List Index) (r : Result) :
    r ∈ preScores q idx → 0 < r.score ∧ r.score = bestScore q r.index := by
  intro hr
  rcases List.mem_filterMap.mp hr with ⟨it, _, heq⟩
  dsimp only at heq
  split at heq
  case isTrue hpos =>
    cases heq
    exact ⟨hpos, rfl⟩
  case isFalse => cases heq

theorem candidates_mem_pre (query : String) (idx : List Index) (r : Result) :
    r ∈ candidates query idx → r ∈ preScores (String.mk (goTrimSpace query.toList)) idx := by
  intro hr
  unfold candidates at hr
  dsimp only at hr
  split at hr
  · cases hr
  · exact sortSliceGo_subset resLt _ r hr

theorem scoreOne_empty_query (s : String) : scoreOne "" s = 0 := rfl

theorem bestScore_empty_query (it : Index) : bestScore "" it = 0 := by
  unfold bestScore
  dsimp only
  have hfold : ∀ (ls : List String) (acc : Int), acc = 0 →
      ls.foldl (fun best s => if scoreOne "" s > best then scoreOne "" s else best) acc = 0 := by
    intro ls
    induction ls with
    | nil => intro acc h; simpa using h
    | cons z zs ih =>
      intro acc h
      simp only [List.foldl_cons]
      apply ih
      rw [h, scoreOne_empty_query]
      simp
  rw [hfold it.tags _ (hfold it.aliases _ (scoreOne_empty_query it.name))]

theorem preScores_empty_query (idx : List Index) : preScores "" idx = [] := by
  unfold preScores
  rw [List.filterMap_eq_nil_iff]
  intro it _
  dsimp only
  rw [if_neg]
  rw [bestScore_empty_query]
  omega

/-- C1: the spec claims every adapter Apply run preserves entries whose
name matches no canonical entity.  The claude adapter's own Apply
(claude.go:88-94) instead keeps only current entries whose names are IN
the canonical enabled set, so on a canonical document with no servers it
deletes the unmanaged entry "foo" from the client file (and writes the
emptied file to disk), contradicting both the spec and the adapter's own
comment "preserving unmanaged entries".  The app-level applyToClaude
(apply.go:145-169) implements the claimed behaviour: on the same input it
keeps "foo" and reports no changes. -/
theorem C1_unmanaged_dropped :
    claudeAdapterApply c1fs c1canon =
      Except.ok
        ({ file := FileData.stored { mcpServers := [] },
           backups := [FileData.stored { mcpServers := [("foo", c1srv)] }],
           writes := 1 },
         { mcpServers := [("foo", c1srv)] }, { mcpServers := [] }) ∧
    applyToClaude c1fs c1canon false "n" = Except.ok (c1fs, ApplyOutcome.noChanges) :=
  ⟨rfl, rfl⟩

/-- C2: the spec claims a denied confirmation aborts with zero side
effects.  applyToGenericClient (apply.go:357-399) calls adapter.Apply —
which backs up and writes the file — BEFORE prompting, so answering "n"
leaves the new file content and a fresh backup on disk: here the client
held only the unmanaged entry "keep", the canonical document enables
"srv", the answer is "n", and afterwards the file holds exactly "srv"
(the before and after states differ) and one new backup exists. -/
theorem C2_decline_after_write :
    applyToGenericCline true c2fs c2canon false "n" =
      Except.ok
        ({ file := FileData.stored
             { mcpServers := [("srv", { command := "c", args := [], env := [] })] },
           backups := [FileData.stored { mcpServers := [("keep", c2srv)] }],
           writes := 1 },
         ApplyOutcome.declined) ∧
    FileData.stored
        ({ mcpServers := [("srv", { command := "c", args := [], env := [] })] } : ClineConfig) ≠
      c2fs.file :=
  ⟨rfl, by decide⟩

/-- C3: the spec claims byte-equal before/after serializations mean no
write and no backup.  claude.Adapter.Apply (claude.go:104-111) backs up
and writes unconditionally: on a file already equal to the merge result
(empty config, empty canonical document) the returned before and after
values are equal, yet a backup is created and the file is written.  The
app-level applyToClaude path does implement the claim (same input:
noChanges, state untouched). -/
theorem C3_write_despite_no_changes :
    claudeAdapterApply c3fs c3canon =
      Except.ok
        ({ file := FileData.stored { mcpServers := [] },
           backups := [FileData.stored { mcpServers := [] }],
           writes := 1 },
         { mcpServers := [] }, { mcpServers := [] }) ∧
    applyToClaude c3fs c3canon false "" = Except.ok (c3fs, ApplyOutcome.noChanges) :=
  ⟨rfl, rfl⟩

/-- C4 counterexample: the claim says every adapter's Load returns an
empty state on unparsable content; claude.Adapter.Load (claude.go:52)
returns the json.Unmarshal error instead. -/
theorem C4_claude_load_fails_on_unparsable :
    claudeLoad FileData.malformed = Except.error "unmarshal" := rfl

/-- C4 amended: every adapter's Load returns the empty state (no error)
on a missing file; on unparsable content the cline and warp adapters
return the empty state, while claude, cursor and vscode return the parse
error. -/
theorem C4_load_amended :
    claudeLoad FileData.absent = Except.ok { mcpServers := [] } ∧
    clineLoad FileData.absent = Except.ok { mcpServers := [] } ∧
    warpLoad FileData.absent = Except.ok { mcpServers := [] } ∧
    vscodeLoad FileData.absent = Except.ok { mcpServers := [], other := [] } ∧
    cursorLoad FileData.absent = Except.ok { mcpServers := [], other := [] } ∧
    clineLoad FileData.malformed = Except.ok { mcpServers := [] } ∧
    warpLoad FileData.malformed = Except.ok { mcpServers := [] } ∧
    claudeLoad FileData.malformed = Except.error "unmarshal" ∧
    cursorLoad FileData.malformed = Except.error "unmarshal" ∧
    vscodeLoad FileData.malformed = Except.error "unmarshal" :=
  ⟨rfl, rfl, rfl, rfl, rfl, rfl, rfl, rfl, rfl, rfl⟩

/-- C5 counterexample: the claim says Detect returns true whenever the
client or its config directory is present; claude.Adapter.Detect stats
only the config file (claude.go:36-42), so with the directory present
and the file missing it returns false. -/
theorem C5_claude_detect_requires_file :
    claudeDetect { fileStat := StatR.missing, dirStat := StatR.found } = Except.ok false := rfl

/-- C5 amended: the cline adapter detects via the config directory and
the warp adapter via the config directory or (on macOS) the installed
application bundle, neither requiring the config file; the claude,
cursor and vscode adapters return true exactly when the config FILE
itself is present, regardless of the directory. -/
theorem C5_detect_amended :
    (∀ d : StatR, claudeDetect { fileStat := StatR.found, dirStat := d } = Except.ok true ∧
      claudeDetect { fileStat := StatR.missing, dirStat := d } = Except.ok false) ∧
    (∀ d : StatR, cursorDetect { fileStat := StatR.found, dirStat := d } = Except.ok true ∧
      cursorDetect { fileStat := StatR.missing, dirStat := d } = Except.ok false) ∧
    (∀ d : StatR, vscodeDetect { fileStat := StatR.found, dirStat := d } = Except.ok true ∧
      vscodeDetect { fileStat := StatR.missing, dirStat := d } = Except.ok false) ∧
    (∀ f : StatR, clineDetect { fileStat := f, dirStat := StatR.found } = Except.ok true) ∧
    (∀ (g : String) (app : StatR),
      warpDetect { dirStat := StatR.found, goos := g, appStat := app } = Except.ok true) ∧
    warpDetect { dirStat := StatR.missing, goos := "darwin", appStat := StatR.found } =
      Except.ok true :=
  ⟨fun _ => ⟨rfl, rfl⟩, fun _ => ⟨rfl, rfl⟩, fun _ => ⟨rfl, rfl⟩,
   fun _ => rfl, fun _ _ => rfl, rfl⟩

/-- C9: a server whose Health spec is nil gets the default stdio check
with a 5000 ms timeout and exactly one attempt, whose outcome is
reported (health.go:60-69 plus the loop with retries = 1). -/
theorem C9_default_health (server : Server) (attempts : Nat → CheckResult)
    (cancelledAt : Nat → Bool) (h : server.health = none) :
    checkServer server attempts cancelledAt =
      CheckOutcome.ran "stdio" 5000 1 (LoopOut.completed 1 (attempts 0)) := by
  simp [checkServer, h, checkLoop, defaultHealthSpec, checkersList, zeroResult]

/-- C9 witness: the theorem applied to a concrete server with no health
spec and a concrete attempt oracle. -/
theorem C9_default_health_witness :
    checkServer c9srv (fun _ => unhealthyRes9) (fun _ => false) =
      CheckOutcome.ran "stdio" 5000 1 (LoopOut.completed 1 unhealthyRes9) :=
  C9_default_health c9srv (fun _ => unhealthyRes9) (fun _ => false) rfl

/-- C7 counterexample: scoreOne trims before comparing, so
scoreOne("b", " b") = 100 although " b" and "b" are not equal
case-insensitively (refuting the "= 100 iff case-insensitively equal"
claim), and although " b" case-insensitively contains "b" with
len(s) - len(q) = 1, so the claim would demand 79; moreover the token
branch can also produce 100 for unequal strings (eleven "aaa" tokens
against "aaa": 60 - (3 - 43) = 100), refuting the "only if" direction
even for trimmed strings. -/
theorem C7_scoreOne_claim_false :
    scoreOne "b" " b" = 100 ∧
    goToLower " b".toList ≠ goToLower "b".toList ∧
    containsL (goToLower "b".toList) (goToLower " b".toList) = true ∧
    scoreOne "b" " b" ≠ 80 - ((" b".length : Int) - ("b".length : Int)) ∧
    normQS "aaa aaa aaa aaa aaa aaa aaa aaa aaa aaa aaa" ≠ normQS "aaa" ∧
    scoreOne "aaa aaa aaa aaa aaa aaa aaa aaa aaa aaa aaa" "aaa" = 100 := by
  decide

/-- C7 amended: on the normalized strings (lowercase of the trimmed
input, which is what scoreOne actually compares), equality of nonempty
normal forms gives exactly 100, and containment of unequal nonempty
normal forms gives exactly 80 minus the difference of the normalized
lengths.  (The converse of the first clause is false: the token branch
can also reach 100, as the counterexample shows.) -/
theorem C7_scoreOne_amended (q s : String) :
    (normQS q = normQS s → normQS q ≠ [] → scoreOne q s = 100) ∧
    (containsL (normQS q) (normQS s) = true → normQS q ≠ normQS s →
      normQS q ≠ [] → normQS s ≠ [] →
      scoreOne q s = 80 - (((normQS s).length : Int) - (normQS q).length)) := by
  constructor
  · intro he hne
    unfold scoreOne
    dsimp only
    rw [if_neg, if_pos he]
    intro hor
    rcases Bool.or_eq_true_iff.mp hor with h | h
    · exact hne (List.isEmpty_iff.mp h)
    · rw [he] at hne; exact hne (List.isEmpty_iff.mp h)
  · intro hc hne hq hs
    unfold scoreOne
    dsimp only
    rw [if_neg, if_neg hne, if_pos hc]
    intro hor
    rcases Bool.or_eq_true_iff.mp hor with h | h
    · exact hq (List.isEmpty_iff.mp h)
    · exact hs (List.isEmpty_iff.mp h)

/-- C7 witness: the amended theorem applied to ("GIT", "git") for the
equality clause and to ("git", "mygit") for the containment clause. -/
theorem C7_scoreOne_amended_witness :
    scoreOne "GIT" "git" = 100 ∧ scoreOne "git" "mygit" = 78 := by
  constructor
  · exact (C7_scoreOne_amended "GIT" "git").1 (by decide) (by decide)
  · have h := (C7_scoreOne_amended "git" "mygit").2 (by decide) (by decide) (by decide) (by decide)
    have h2 : (80 : Int) - (((normQS "mygit").length : Int) - (normQS "git").length) = 78 := by
      decide
    rw [h, h2]

/-- C10 counterexample: the claim quantifies over all s containing q with
len(s) - len(q) >= 80, but scoreOne trims first: for s = "a" followed by
80 spaces, s contains q = "a" and len(s) - len(q) = 80, yet the entity is
NOT excluded from Candidates — it scores 100 (exact match after
trimming). -/
theorem C10_padding_still_matches :
    containsL "a".toList c10pad.toList = true ∧
    c10pad.length = "a".length + 80 ∧
    candidates "a" [{ name := c10pad, aliases := [], tags := [] }] =
      [{ index := { name := c10pad, aliases := [], tags := [] }, score := 100 }] := by
  decide

/-- C10 amended: measured on the normalized (trimmed, lowercased)
strings, containment with a length difference of at least 80 forces
scoreOne to a value of at most 0 (the substring branch returns
80 - difference and the token branch is never consulted), and an entity
whose best score against the trimmed query is at most 0 contributes no
entry to the list Candidates sorts and returns. -/
theorem C10_long_containment_excluded :
    (∀ q s : String, containsL (normQS q) (normQS s) = true →
      (normQS q).length + 80 ≤ (normQS s).length → scoreOne q s ≤ 0) ∧
    (∀ (query : String) (it : Index) (idx : List Index),
      bestScore (String.mk (goTrimSpace query.toList)) it ≤ 0 →
      ∀ r ∈ candidates query idx, r.index ≠ it) := by
  constructor
  · intro q s hc hlen
    unfold scoreOne
    dsimp only
    by_cases h1 : ((normQS q).isEmpty || (normQS s).isEmpty) = true
    · rw [if_pos h1]
    · rw [if_neg h1]
      by_cases h2 : normQS q = normQS s
      · exfalso
        rw [h2] at hlen
        omega
      · rw [if_neg h2, if_pos hc]
        omega
  · intro query it idx hbest r hr heq
    have hpre := candidates_mem_pre query idx r hr
    rcases preScores_mem _ idx r hpre with ⟨hpos, hsc⟩
    rw [heq] at hsc
    omega

/-- C10 witness: the amended theorem applied to q = "a" and the 82-byte
name "a" ++ 81 * "b" (no whitespace, so trimming changes nothing): the
score is below zero and the entity never appears in Candidates. -/
theorem C10_long_containment_excluded_witness :
    scoreOne "a" c10long ≤ 0 ∧
    (∀ r ∈ candidates "a" [{ name := c10long, aliases := [], tags := [] }],
      r.index ≠ { name := c10long, aliases := [], tags := [] }) := by
  constructor
  · exact C10_long_containment_excluded.1 "a" c10long (by decide) (by decide)
  · exact C10_long_containment_excluded.2 "a"
      { name := c10long, aliases := [], tags := [] }
      [{ name := c10long, aliases := [], tags := [] }] (by decide)

theorem checkLoop_props (server : Server) (spec : HealthSpec) (attempts : Nat → CheckResult)
    (cancelledAt : Nat → Bool) :
    ∀ (fuel i : Nat) (last : CheckResult),
      loopAttempts (checkLoop server spec attempts cancelledAt i fuel last) ≤ i + fuel ∧
      i ≤ loopAttempts (checkLoop server spec attempts cancelledAt i fuel last) ∧
      (∀ k, i ≤ k →
        k + 1 < loopAttempts (checkLoop server spec attempts cancelledAt i fuel last) →
        (attempts k).status ≠ "healthy") ∧
      (∀ m r, checkLoop server spec attempts cancelledAt i fuel last = LoopOut.completed m r →
        (m = i ∧ r = last) ∨ (i < m ∧ r = attempts (m - 1))) ∧
      (∀ m r, checkLoop server spec attempts cancelledAt i fuel last = LoopOut.cancelled m r →
        r.status = "timeout") := by
  intro fuel
  induction fuel with
  | zero =>
    intro i last
    refine ⟨by simp [checkLoop, loopAttempts], by simp [checkLoop, loopAttempts], ?_, ?_, ?_⟩
    · intro k hk hk2
      simp [checkLoop, loopAttempts] at hk2
      omega
    · intro m r heq
      rw [checkLoop] at heq
      cases heq
      exact Or.inl ⟨rfl, rfl⟩
    · intro m r heq
      rw [checkLoop] at heq
      cases heq
  | succ fuel ih =>
    intro i last
    rw [checkLoop]
    dsimp only
    split
    case isTrue h =>
      refine ⟨by simp only [loopAttempts]; omega, by simp [loopAttempts], ?_, ?_, ?_⟩
      · intro k hk hk2
        simp [loopAttempts] at hk2
        omega
      · intro m r heq; cases heq
      · intro m r heq; cases heq; rfl
    case isFalse h =>
      split
      case isTrue hh =>
        refine ⟨by simp only [loopAttempts]; omega, by simp only [loopAttempts]; omega, ?_, ?_, ?_⟩
        · intro k hk hk2
          simp [loopAttempts] at hk2
          omega
        · intro m r heq
          cases heq
          exact Or.inr ⟨by omega, by simp⟩
        · intro m r heq; cases heq
      case isFalse hh =>
        rcases ih (i + 1) (attempts i) with ⟨ha, hb, hc, hd, he⟩
        refine ⟨by omega, by omega, ?_, ?_, ?_⟩
        · intro k hk hk2
          rcases Nat.eq_or_lt_of_le hk with rfl | hk3
          · simpa using hh
          · exact hc k hk3 hk2
        · intro m r heq
          rcases hd m r heq with ⟨rfl, rfl⟩ | ⟨hm, hr⟩
          · exact Or.inr ⟨by omega, by simp⟩
          · exact Or.inr ⟨by omega, hr⟩
        · exact he

theorem checkLoop_first_attempt (server : Server) (spec : HealthSpec)
    (attempts : Nat → CheckResult) (cancelledAt : Nat → Bool) (fuel : Nat)
    (last : CheckResult) :
    1 ≤ loopAttempts (checkLoop server spec attempts cancelledAt 0 (fuel + 1) last) := by
  rw [checkLoop]
  dsimp only
  rw [if_neg (by simp)]
  split
  · simp [loopAttempts]
  · have h1 := (checkLoop_props server spec attempts cancelledAt fuel 1 (attempts 0)).2.1
    simpa using h1

/-- C8 counterexample: the claim covers every configured retry count R
(treating only 0 as 1).  With retries = -1 the loop body never runs
(health.go:93-99: only retries == 0 is normalized, and the loop guard
i < -1 fails immediately), so zero attempts happen — "at most R = -1
attempts" is unsatisfiable — and the reported result is the zero-value
CheckResult with status "", which is not the outcome of any attempt
(the oracle always answers "unhealthy"). -/
theorem C8_negative_retries_zero_attempts :
    checkServer c8srv (fun _ => unhealthyRes) (fun _ => false) =
      CheckOutcome.ran "stdio" 5000 (-1) (LoopOut.completed 0 zeroResult) ∧
    zeroResult.status ≠ unhealthyRes.status ∧
    ¬ ((0 : Int) ≤ -1) := by
  refine ⟨rfl, by decide, by decide⟩

/-- C8 amended: for a known check type and a non-negative configured
retry count R (with R = 0 treated as 1, giving R' >= 1) and timeout T
(with T = 0 treated as 5000 ms), CheckServer runs the retry loop with
effective values R' and T': at most R' attempts are made and at least
one, every non-final attempt is non-healthy (the loop stops at the first
healthy outcome), a completed loop reports exactly the last attempt's
outcome, and if the context is already cancelled when an inter-retry
delay begins, the reported status is "timeout". -/
theorem C8_checkserver_amended (server : Server) (attempts : Nat → CheckResult)
    (cancelledAt : Nat → Bool)
    (hknown : checkersList.contains (server.health.getD defaultHealthSpec).ctype = true)
    (hnn : 0 ≤ (server.health.getD defaultHealthSpec).retries) :
    let spec := server.health.getD defaultHealthSpec
    let effT : Int := if spec.timeoutMs = 0 then 5000 else spec.timeoutMs
    let effR : Int := if spec.retries = 0 then 1 else spec.retries
    let out := checkLoop server spec attempts cancelledAt 0 effR.toNat zeroResult
    checkServer server attempts cancelledAt = CheckOutcome.ran spec.ctype effT effR out ∧
    (loopAttempts out : Int) ≤ effR ∧
    1 ≤ loopAttempts out ∧
    (∀ k, k + 1 < loopAttempts out → (attempts k).status ≠ "healthy") ∧
    (∀ m r, out = LoopOut.completed m r → r = attempts (m - 1)) ∧
    (∀ m r, out = LoopOut.cancelled m r → r.status = "timeout") := by
  intro spec effT effR out
  have heffR : 1 ≤ effR := by
    have hx : 0 ≤ spec.retries := hnn
    simp only [effR]
    split
    · omega
    · omega
  have hfuel : ∃ f : Nat, effR.toNat = f + 1 := ⟨effR.toNat - 1, by omega⟩
  rcases hfuel with ⟨f, hf⟩
  have hone : 1 ≤ loopAttempts out := by
    simp only [out, hf]
    exact checkLoop_first_attempt server spec attempts cancelledAt f zeroResult
  rcases checkLoop_props server spec attempts cancelledAt effR.toNat 0 zeroResult
    with ⟨ha, _, hc, hd, he⟩
  refine ⟨?_, ?_, hone, ?_, ?_, ?_⟩
  · unfold checkServer
    rw [if_pos hknown]
  · have : loopAttempts out ≤ effR.toNat := by simpa using ha
    omega
  · intro k hk
    exact hc k (Nat.zero_le k) hk
  · intro m r heq
    rcases hd m r heq with ⟨rfl, _⟩ | ⟨_, hr⟩
    · exfalso
      have : loopAttempts out = 0 := by rw [heq]; rfl
      omega
    · exact hr
  · exact he

/-- C8 witness: the amended theorem applied to a server with
timeoutMs = 250, retries = 2, an always-unhealthy oracle and no
cancellation. -/
theorem C8_checkserver_amended_witness :
    let spec := w8srv.health.getD defaultHealthSpec
    let effT : Int := if spec.timeoutMs = 0 then 5000 else spec.timeoutMs
    let effR : Int := if spec.retries = 0 then 1 else spec.retries
    let out := checkLoop w8srv spec (fun _ => unhealthyRes) (fun _ => false) 0
      effR.toNat zeroResult
    checkServer w8srv (fun _ => unhealthyRes) (fun _ => false) =
      CheckOutcome.ran spec.ctype effT effR out ∧
    (loopAttempts out : Int) ≤ effR ∧
    1 ≤ loopAttempts out ∧
    (∀ k, k + 1 < loopAttempts out → ((fun _ => unhealthyRes) k : CheckResult).status ≠ "healthy") ∧
    (∀ m r, out = LoopOut.completed m r → r = (fun _ => unhealthyRes : Nat → CheckResult) (m - 1)) ∧
    (∀ m r, out = LoopOut.cancelled m r → r.status = "timeout") :=
  C8_checkserver_amended w8srv (fun _ => unhealthyRes) (fun _ => false) (by decide) (by decide)

/-- C6 counterexample: with thirteen matching entities, sort.Slice leaves
the insertion-sort regime and runs a quicksort partition that reorders
equal scores.  For the query "a" and twelve three-letter names (score 78)
followed by one two-letter name (score 79), the 78-tier comes back as
hba, dba, eba, fba, gba, bba, iba, jba, kba, lba, mba, cba — not in
input order (e.g. hba now precedes bba), so equal-score candidates do
not keep the input entity order. -/
theorem C6_tie_order_not_preserved :
    ((candidates "a" ceIdx).map (fun r => (r.index.name, r.score)) =
      [("ba", 79), ("hba", 78), ("dba", 78), ("eba", 78), ("fba", 78), ("gba", 78),
       ("bba", 78), ("iba", 78), ("jba", 78), ("kba", 78), ("lba", 78), ("mba", 78),
       ("cba", 78)]) ∧
    ((preScores "a" ceIdx).map (fun r => (r.index.name, r.score)) =
      [("bba", 78), ("cba", 78), ("dba", 78), ("eba", 78), ("fba", 78), ("gba", 78),
       ("hba", 78), ("iba", 78), ("jba", 78), ("kba", 78), ("lba", 78), ("mba", 78),
       ("ba", 79)]) ∧
    (candidates "a" ceIdx).filter (fun r => r.score = 78) ≠
      (preScores "a" ceIdx).filter (fun r => r.score = 78) := by
  decide

/-!
## Sortedness of the sort.Slice embedding, for every input size.
Index-level specifications for each pdqsort subroutine: each one
rearranges only its subrange (`SegOp`), and the partition, heap and
partial-insertion invariants combine into `SortedSeg` for the whole
algorithm, for any fuel at least (b - a) + 2.
-/

theorem dget_eq_q [Inhabited α] (l : List α) (i : Nat) : dget l i = (l[i]?).getD default := by
  simp [dget]

theorem dget_lt_length [Inhabited α] (l : List α) (i : Nat) (h : i < l.length) :
    dget l i = l[i] := by
  rw [dget_eq_q, List.getElem?_eq_getElem h]
  rfl

theorem dget_ge_length [Inhabited α] (l : List α) (i : Nat) (h : l.length ≤ i) :
    dget l i = default := by
  rw [dget_eq_q, List.getElem?_eq_none h]
  rfl

theorem dget_set [Inhabited α] (l : List α) (i : Nat) (v : α) (k : Nat) :
    dget (l.set i v) k = if k = i ∧ i < l.length then v else dget l k := by
  by_cases hk : k = i ∧ i < l.length
  · obtain ⟨rfl, hi⟩ := hk
    rw [if_pos ⟨rfl, hi⟩, dget_eq_q, List.getElem?_set_self hi]
    rfl
  · rw [if_neg hk]
    by_cases hki : k = i
    · subst hki
      have hi : l.length ≤ k := by
        rcases Nat.lt_or_ge k l.length with h | h
        · exact absurd ⟨rfl, h⟩ hk
        · exact h
      rw [dget_ge_length _ _ (by simpa using hi), dget_ge_length _ _ hi]
    · rw [dget_eq_q, dget_eq_q, List.getElem?_set_ne (fun h => hki h.symm)]

theorem dswap_length [Inhabited α] (l : List α) (i j : Nat) :
    (dswap l i j).length = l.length := by
  unfold dswap
  split <;> simp

theorem dget_dswap [Inhabited α] (l : List α) (i j k : Nat)
    (hi : i < l.length) (hj : j < l.length) :
    dget (dswap l i j) k =
      if k = j then dget l i else if k = i then dget l j else dget l k := by
  unfold dswap
  rw [if_pos (by simp [hi, hj])]
  rw [dget_set, dget_set]
  by_cases hkj : k = j
  · subst hkj
    simp [hj]
  · by_cases hki : k = i
    · subst hki
      simp [hkj, hi]
    · simp [hkj, hki]

theorem dget_dswap_ne [Inhabited α] (l : List α) (i j k : Nat)
    (hki : k ≠ i) (hkj : k ≠ j) : dget (dswap l i j) k = dget l k := by
  unfold dswap
  split
  case isTrue h =>
    rw [dget_set, dget_set]
    simp [hki, hkj]
  case isFalse => rfl

theorem segOp_refl [Inhabited α] (l : List α) (a b : Nat) : SegOp l l a b :=
  ⟨rfl, fun _ _ => rfl, fun k h1 h2 => ⟨k, h1, h2, rfl⟩⟩

theorem segOp_trans [Inhabited α] {l1 l2 l3 : List α} {a b : Nat}
    (h1 : SegOp l1 l2 a b) (h2 : SegOp l2 l3 a b) : SegOp l1 l3 a b := by
  obtain ⟨hl1, ho1, hi1⟩ := h1
  obtain ⟨hl2, ho2, hi2⟩ := h2
  refine ⟨hl2.trans hl1, fun k hk => (ho2 k hk).trans (ho1 k hk), fun k hk1 hk2 => ?_⟩
  obtain ⟨k2, hk21, hk22, hk2e⟩ := hi2 k hk1 hk2
  obtain ⟨k3, hk31, hk32, hk3e⟩ := hi1 k2 hk21 hk22
  exact ⟨k3, hk31, hk32, hk2e.trans hk3e⟩

theorem segOp_mono [Inhabited α] {l1 l2 : List α} {a b a2 b2 : Nat}
    (h : SegOp l1 l2 a b) (ha : a2 ≤ a) (hb : b ≤ b2) : SegOp l1 l2 a2 b2 := by
  obtain ⟨hl, ho, hi⟩ := h
  refine ⟨hl, fun k hk => ho k (by omega), fun k hk1 hk2 => ?_⟩
  rcases Nat.lt_or_ge k a with hka | hka
  · exact ⟨k, hk1, hk2, ho k (Or.inl hka)⟩
  · rcases Nat.lt_or_ge k b with hkb | hkb
    · obtain ⟨k2, h1, h2, h3⟩ := hi k hka hkb
      exact ⟨k2, by omega, by omega, h3⟩
    · exact ⟨k, hk1, hk2, ho k (Or.inr hkb)⟩

theorem segOp_dswap [Inhabited α] (l : List α) {a b i j : Nat}
    (hai : a ≤ i) (hib : i < b) (haj : a ≤ j) (hjb : j < b) (hb : b ≤ l.length) :
    SegOp l (dswap l i j) a b := by
  have hi : i < l.length := by omega
  have hj : j < l.length := by omega
  refine ⟨dswap_length l i j, fun k hk => dget_dswap_ne l i j k (by omega) (by omega),
    fun k hk1 hk2 => ?_⟩
  rw [dget_dswap l i j k hi hj]
  by_cases hkj : k = j
  · exact ⟨i, hai, hib, by simp [hkj]⟩
  · by_cases hki : k = i
    · subst hki
      exact ⟨j, haj, hjb, by simp [hkj]⟩
    · exact ⟨k, hk1, hk2, by simp [hkj, hki]⟩

theorem splice_length (l m : List α) (a b : Nat) (hab : a ≤ b) (hb : b ≤ l.length)
    (hm : m.length = b - a) : (spliceRange l a b m).length = l.length := by
  unfold spliceRange
  simp [hm]
  omega

theorem dget_splice_lt [Inhabited α] (l m : List α) (a b k : Nat) (hb : b ≤ l.length)
    (hk : k < a) (hab : a ≤ b) : dget (spliceRange l a b m) k = dget l k := by
  unfold spliceRange
  have ha : a ≤ l.length := by omega
  rw [dget_eq_q, dget_eq_q, List.getElem?_append_left, List.getElem?_append_left,
    List.getElem?_take_of_lt hk]
  · simpa [ha] using hk
  · simp [ha]
    omega

theorem dget_splice_mid [Inhabited α] (l m : List α) (a b k : Nat) (hb : b ≤ l.length)
    (hk1 : a ≤ k) (hk2 : k < b) (hm : m.length = b - a) :
    dget (spliceRange l a b m) k = dget m (k - a) := by
  unfold spliceRange
  have ha : a ≤ l.length := by omega
  rw [dget_eq_q, dget_eq_q, List.getElem?_append_left,
    List.getElem?_append_right (by simp [ha]; omega)]
  · simp [ha]
  · simp [ha]
    omega

theorem dget_splice_ge [Inhabited α] (l m : List α) (a b k : Nat) (hb : b ≤ l.length)
    (hk : b ≤ k) (hab : a ≤ b) (hm : m.length = b - a) :
    dget (spliceRange l a b m) k = dget l k := by
  unfold spliceRange
  have ha : a ≤ l.length := by omega
  have hlen2 : (l.take a ++ m).length = b := by
    simp [hm]
    omega
  rw [dget_eq_q, dget_eq_q, List.getElem?_append_right (by rw [hlen2]; exact hk),
    List.getElem?_drop, hlen2]
  have hidx : b + (k - b) = k := by omega
  rw [hidx]

theorem sliceRange_length (l : List α) (a b : Nat) (hab : a ≤ b) (hb : b ≤ l.length) :
    (sliceRange l a b).length = b - a := by
  unfold sliceRange
  simp
  omega

theorem sliceRange_index (l : List α) (a b : Nat) (x : α) (hb : b ≤ l.length) [Inhabited α]
    (hx : x ∈ sliceRange l a b) : ∃ k, a ≤ k ∧ k < b ∧ dget l k = x := by
  obtain ⟨t, ht, hte⟩ := List.mem_iff_getElem.mp hx
  have htlen : t < b - a := by
    have := ht
    unfold sliceRange at this
    simp at this
    omega
  have hat : a + t < l.length := by
    have := ht
    unfold sliceRange at this
    simp at this
    omega
  refine ⟨a + t, by omega, by omega, ?_⟩
  rw [dget_lt_length l (a + t) hat, ← hte]
  unfold sliceRange
  rw [List.getElem_take, List.getElem_drop]

theorem segOp_splice [Inhabited α] (l m : List α) (a b : Nat) (hb : b ≤ l.length) (hab : a ≤ b)
    (hm : m.length = b - a) (hsub : ∀ x ∈ m, x ∈ sliceRange l a b) :
    SegOp l (spliceRange l a b m) a b := by
  refine ⟨splice_length l m a b hab hb hm, fun k hk => ?_, fun k hk1 hk2 => ?_⟩
  · rcases hk with hk | hk
    · exact dget_splice_lt l m a b k hb hk hab
    · exact dget_splice_ge l m a b k hb hk hab hm
  · rw [dget_splice_mid l m a b k hb hk1 hk2 hm]
    have hkm : k - a < m.length := by omega
    have hmem : dget m (k - a) ∈ m := by
      rw [dget_lt_length m (k - a) hkm]
      exact List.getElem_mem hkm
    obtain ⟨k2, h1, h2, h3⟩ := sliceRange_index l a b _ hb (hsub _ hmem)
    exact ⟨k2, h1, h2, h3.symm⟩

theorem goInsert_length (lt : α → α → Bool) (x : α) :
    ∀ l : List α, (goInsert lt x l).length = l.length + 1 := by
  intro l
  induction l with
  | nil => rfl
  | cons y ys ih =>
    unfold goInsert
    split
    · simp
    · simp [ih]

theorem insFold_length (lt : α → α → Bool) :
    ∀ (l acc : List α),
      (l.foldl (fun acc y => goInsert lt y acc) acc).length = acc.length + l.length := by
  intro l
  induction l with
  | nil => intro acc; simp
  | cons z zs ih =>
    intro acc
    simp only [List.foldl_cons]
    rw [ih, goInsert_length]
    simp
    omega

theorem insSortList_length (lt : α → α → Bool) (l : List α) :
    (insSortList lt l).length = l.length := by
  unfold insSortList
  rw [insFold_length]
  simp

theorem sortedSeg_of_adj (l : List Result) (a b : Nat)
    (h : ∀ k, a < k → k < b → dsc l k ≤ dsc l (k - 1)) : SortedSeg l a b := by
  intro i j hai hij hjb
  induction j with
  | zero => omega
  | succ j ih =>
    have hstep : dsc l (j + 1) ≤ dsc l j := by
      have := h (j + 1) (by omega) hjb
      simpa using this
    rcases Nat.lt_or_ge i j with hij2 | hij2
    · exact le_trans hstep (ih hij2 (by omega))
    · have hieq : i = j := by omega
      subst hieq
      exact hstep

theorem sortedSeg_pairwise (l : List Result) (h : SortedSeg l 0 l.length) :
    List.Pairwise (fun u v => v.score ≤ u.score) l := by
  rw [List.pairwise_iff_getElem]
  intro i j h1 h2 hij
  have hs := h i j (Nat.zero_le _) hij h2
  unfold dsc at hs
  rw [dget_lt_length l i h1, dget_lt_length l j h2] at hs
  exact hs

theorem segOp_insertionSortRange [Inhabited α] (lt : α → α → Bool) (l : List α) (a b : Nat)
    (hab : a ≤ b) (hb : b ≤ l.length) : SegOp l (insertionSortRange lt l a b) a b := by
  unfold insertionSortRange
  exact segOp_splice l _ a b hb hab
    (by rw [insSortList_length, sliceRange_length l a b hab hb])
    (insSortList_subset lt _)

theorem insertionSortRange_sorted (l : List Result) (a b : Nat) (hab : a ≤ b)
    (hb : b ≤ l.length) : SortedSeg (insertionSortRange resLt l a b) a b := by
  intro i j hai hij hjb
  have hm : (insSortList resLt (sliceRange l a b)).length = b - a := by
    rw [insSortList_length, sliceRange_length l a b hab hb]
  unfold insertionSortRange dsc
  rw [dget_splice_mid l _ a b i hb hai (by omega) hm,
      dget_splice_mid l _ a b j hb (by omega) hjb hm]
  have h1 : i - a < (insSortList resLt (sliceRange l a b)).length := by omega
  have h2 : j - a < (insSortList resLt (sliceRange l a b)).length := by omega
  rw [dget_lt_length _ _ h1, dget_lt_length _ _ h2]
  exact (List.pairwise_iff_getElem.mp (insSortList_pairwise (sliceRange l a b)))
    (i - a) (j - a) h1 h2 (by omega)

theorem segOp_reverseRange [Inhabited α] (l : List α) (a b : Nat)
    (hab : a ≤ b) (hb : b ≤ l.length) : SegOp l (reverseRangeGo l a b) a b := by
  unfold reverseRangeGo
  exact segOp_splice l _ a b hb hab
    (by rw [List.length_reverse, sliceRange_length l a b hab hb])
    (fun x hx => List.mem_reverse.mp hx)

theorem lbound_of_segOp (l l2 : List Result) (a b : Nat) (ha : 0 < a) (hop : SegOp l l2 a b)
    (hlb : ∀ k, a ≤ k → k < b → dsc l k ≤ dsc l (a - 1)) :
    ∀ k, a ≤ k → k < b → dsc l2 k ≤ dsc l2 (a - 1) := by
  intro k hk1 hk2
  obtain ⟨_, ho, hi⟩ := hop
  obtain ⟨k2, h1, h2, h3⟩ := hi k hk1 hk2
  have hout : dget l2 (a - 1) = dget l (a - 1) := ho (a - 1) (Or.inl (by omega))
  unfold dsc
  rw [h3, hout]
  exact hlb k2 h1 h2

theorem scanLtGo_spec (l : List Result) (a j : Nat) :
    ∀ (fuel i : Nat), j + 2 ≤ i + fuel → i ≤ j + 1 →
      i ≤ scanLtGo resLt l a j i fuel ∧
      scanLtGo resLt l a j i fuel ≤ j + 1 ∧
      (∀ k, i ≤ k → k < scanLtGo resLt l a j i fuel → dsc l a < dsc l k) ∧
      (scanLtGo resLt l a j i fuel ≤ j → dsc l (scanLtGo resLt l a j i fuel) ≤ dsc l a) := by
  intro fuel
  induction fuel with
  | zero => intro i h1 h2; omega
  | succ fuel ih =>
    intro i h1 h2
    unfold scanLtGo
    split
    case isTrue hc =>
      have hc2 : i ≤ j ∧ resLt (dget l i) (dget l a) = true := by
        simpa using hc
      obtain ⟨hr1, hr2, hr3, hr4⟩ := ih (i + 1) (by omega) (by omega)
      refine ⟨by omega, hr2, fun k hk1 hk2 => ?_, hr4⟩
      rcases Nat.eq_or_lt_of_le hk1 with rfl | hk3
      · have := (resLt_true_iff _ _).mp hc2.2
        unfold dsc
        omega
      · exact hr3 k hk3 hk2
    case isFalse hc =>
      refine ⟨le_refl i, by omega, fun k hk1 hk2 => by omega, fun hij => ?_⟩
      have hc2 : ¬ (i ≤ j ∧ resLt (dget l i) (dget l a) = true) := by
        simpa using hc
      have hlt : resLt (dget l i) (dget l a) = false := by
        by_contra hf
        have ht : resLt (dget l i) (dget l a) = true := by simpa using hf
        exact hc2 ⟨hij, ht⟩
      have := (resLt_false_iff _ _).mp hlt
      unfold dsc
      omega

theorem scanGeGo_spec (l : List Result) (a i : Nat) (hi1 : 1 ≤ i) :
    ∀ (fuel j : Nat), j + 2 ≤ i + fuel → i ≤ j + 1 →
      scanGeGo resLt l a i j fuel ≤ j ∧
      i ≤ scanGeGo resLt l a i j fuel + 1 ∧
      (∀ k, scanGeGo resLt l a i j fuel < k → k ≤ j → dsc l k ≤ dsc l a) ∧
      (i ≤ scanGeGo resLt l a i j fuel → dsc l a < dsc l (scanGeGo resLt l a i j fuel)) := by
  intro fuel
  induction fuel with
  | zero => intro j h1 h2; omega
  | succ fuel ih =>
    intro j h1 h2
    unfold scanGeGo
    split
    case isTrue hc =>
      have hc2 : i ≤ j ∧ resLt (dget l j) (dget l a) = false := by
        have : i ≤ j ∧ (! resLt (dget l j) (dget l a)) = true := by simpa using hc
        exact ⟨this.1, by simpa using this.2⟩
      obtain ⟨hr1, hr2, hr3, hr4⟩ := ih (j - 1) (by omega) (by omega)
      refine ⟨by omega, hr2, fun k hk1 hk2 => ?_, hr4⟩
      rcases Nat.eq_or_lt_of_le hk2 with rfl | hk3
      · have := (resLt_false_iff _ _).mp hc2.2
        unfold dsc
        omega
      · exact hr3 k hk1 (by omega)
    case isFalse hc =>
      refine ⟨le_refl j, by omega, fun k hk1 hk2 => by omega, fun hij => ?_⟩
      have hc2 : ¬ (i ≤ j ∧ (! resLt (dget l j) (dget l a)) = true) := by
        simpa using hc
      have hlt : resLt (dget l j) (dget l a) = true := by
        by_contra hf
        have ht : resLt (dget l j) (dget l a) = false := by simpa using hf
        exact hc2 ⟨hij, by simp [ht]⟩
      have := (resLt_true_iff _ _).mp hlt
      unfold dsc
      omega

theorem scanLeGo_spec (l : List Result) (a j : Nat) :
    ∀ (fuel i : Nat), j + 2 ≤ i + fuel → i ≤ j + 1 →
      i ≤ scanLeGo resLt l a j i fuel ∧
      scanLeGo resLt l a j i fuel ≤ j + 1 ∧
      (∀ k, i ≤ k → k < scanLeGo resLt l a j i fuel → dsc l a ≤ dsc l k) ∧
      (scanLeGo resLt l a j i fuel ≤ j → dsc l (scanLeGo resLt l a j i fuel) < dsc l a) := by
  intro fuel
  induction fuel with
  | zero => intro i h1 h2; omega
  | succ fuel ih =>
    intro i h1 h2
    unfold scanLeGo
    split
    case isTrue hc =>
      have hc2 : i ≤ j ∧ resLt (dget l a) (dget l i) = false := by
        have : i ≤ j ∧ (! resLt (dget l a) (dget l i)) = true := by simpa using hc
        exact ⟨this.1, by simpa using this.2⟩
      obtain ⟨hr1, hr2, hr3, hr4⟩ := ih (i + 1) (by omega) (by omega)
      refine ⟨by omega, hr2, fun k hk1 hk2 => ?_, hr4⟩
      rcases Nat.eq_or_lt_of_le hk1 with rfl | hk3
      · have := (resLt_false_iff _ _).mp hc2.2
        unfold dsc
        omega
      · exact hr3 k hk3 hk2
    case isFalse hc =>
      refine ⟨le_refl i, by omega, fun k hk1 hk2 => by omega, fun hij => ?_⟩
      have hc2 : ¬ (i ≤ j ∧ (! resLt (dget l a) (dget l i)) = true) := by
        simpa using hc
      have hlt : resLt (dget l a) (dget l i) = true := by
        by_contra hf
        have ht : resLt (dget l a) (dget l i) = false := by simpa using hf
        exact hc2 ⟨hij, by simp [ht]⟩
      have := (resLt_true_iff _ _).mp hlt
      unfold dsc
      omega

theorem scanGtGo_spec (l : List Result) (a i : Nat) (hi1 : 1 ≤ i) :
    ∀ (fuel j : Nat), j + 2 ≤ i + fuel → i ≤ j + 1 →
      scanGtGo resLt l a i j fuel ≤ j ∧
      i ≤ scanGtGo resLt l a i j fuel + 1 ∧
      (∀ k, scanGtGo resLt l a i j fuel < k → k ≤ j → dsc l k < dsc l a) ∧
      (i ≤ scanGtGo resLt l a i j fuel → dsc l a ≤ dsc l (scanGtGo resLt l a i j fuel)) := by
  intro fuel
  induction fuel with
  | zero => intro j h1 h2; omega
  | succ fuel ih =>
    intro j h1 h2
    unfold scanGtGo
    split
    case isTrue hc =>
      have hc2 : i ≤ j ∧ resLt (dget l a) (dget l j) = true := by
        simpa using hc
      obtain ⟨hr1, hr2, hr3, hr4⟩ := ih (j - 1) (by omega) (by omega)
      refine ⟨by omega, hr2, fun k hk1 hk2 => ?_, hr4⟩
      rcases Nat.eq_or_lt_of_le hk2 with rfl | hk3
      · have := (resLt_true_iff _ _).mp hc2.2
        unfold dsc
        omega
      · exact hr3 k hk1 (by omega)
    case isFalse hc =>
      refine ⟨le_refl j, by omega, fun k hk1 hk2 => by omega, fun hij => ?_⟩
      have hc2 : ¬ (i ≤ j ∧ resLt (dget l a) (dget l j) = true) := by
        simpa using hc
      have hlt : resLt (dget l a) (dget l j) = false := by
        by_contra hf
        have ht : resLt (dget l a) (dget l j) = true := by simpa using hf
        exact hc2 ⟨hij, ht⟩
      have := (resLt_false_iff _ _).mp hlt
      unfold dsc
      omega

theorem dsc_dswap (l : List Result) (i j k : Nat) (hi : i < l.length) (hj : j < l.length) :
    dsc (dswap l i j) k = if k = j then dsc l i else if k = i then dsc l j else dsc l k := by
  unfold dsc
  rw [dget_dswap l i j k hi hj]
  by_cases h1 : k = j
  · rw [if_pos h1, if_pos h1]
  · rw [if_neg h1, if_neg h1]
    by_cases h2 : k = i
    · rw [if_pos h2, if_pos h2]
    · rw [if_neg h2, if_neg h2]

theorem partLoopGo_spec (a b : Nat) :
    ∀ (fuel : Nat) (l : List Result) (i j : Nat),
      a + 1 ≤ i → i ≤ j + 1 → j < b → b ≤ l.length → j + 2 ≤ i + 2 * fuel →
      (∀ k, a < k → k < i → dsc l a < dsc l k) →
      (∀ k, j < k → k < b → dsc l k ≤ dsc l a) →
      SegOp l (partLoopGo resLt a l i j fuel).1 i (j + 1) ∧
      (partLoopGo resLt a l i j fuel).2.1 = (partLoopGo resLt a l i j fuel).2.2 + 1 ∧
      i ≤ (partLoopGo resLt a l i j fuel).2.1 ∧
      (partLoopGo resLt a l i j fuel).2.1 ≤ j + 1 ∧
      (∀ k, a < k → k < (partLoopGo resLt a l i j fuel).2.1 →
        dsc (partLoopGo resLt a l i j fuel).1 a < dsc (partLoopGo resLt a l i j fuel).1 k) ∧
      (∀ k, (partLoopGo resLt a l i j fuel).2.2 < k → k < b →
        dsc (partLoopGo resLt a l i j fuel).1 k ≤ dsc (partLoopGo resLt a l i j fuel).1 a) := by
  intro fuel
  induction fuel with
  | zero => intro l i j h1 h2 h3 h4 h5 hL hR; omega
  | succ fuel ih =>
    intro l i j h1 h2 h3 h4 h5 hL hR
    unfold partLoopGo
    dsimp only
    obtain ⟨s1a, s1b, s1c, s1d⟩ := scanLtGo_spec l a j (j + 2) i (by omega) h2
    obtain ⟨s2a, s2b, s2c, s2d⟩ :=
      scanGeGo_spec l a (scanLtGo resLt l a j i (j + 2)) (by omega) (j + 2) j (by omega) s1b
    split
    case isTrue hbr =>
      dsimp only
      refine ⟨segOp_refl l i (j + 1), by omega, by omega, by omega, ?_, ?_⟩
      · intro k hk1 hk2
        rcases Nat.lt_or_ge k i with hk | hk
        · exact hL k hk1 hk
        · exact s1c k hk hk2
      · intro k hk1 hk2
        rcases Nat.lt_or_ge j k with hk | hk
        · exact hR k hk hk2
        · exact s2c k hk1 hk
    case isFalse hbr =>
      have hij : scanLtGo resLt l a j i (j + 2) ≤
          scanGeGo resLt l a (scanLtGo resLt l a j i (j + 2)) j (j + 2) := by omega
      have hvi : dsc l (scanLtGo resLt l a j i (j + 2)) ≤ dsc l a := s1d (by omega)
      have hvj : dsc l a <
          dsc l (scanGeGo resLt l a (scanLtGo resLt l a j i (j + 2)) j (j + 2)) :=
        s2d hij
      have hstrict : scanLtGo resLt l a j i (j + 2) <
          scanGeGo resLt l a (scanLtGo resLt l a j i (j + 2)) j (j + 2) := by
        rcases Nat.eq_or_lt_of_le hij with heq | h
        · exfalso
          rw [← heq] at hvj
          omega
        · exact h
      have hi1b : scanLtGo resLt l a j i (j + 2) < l.length := by omega
      have hj1b : scanGeGo resLt l a (scanLtGo resLt l a j i (j + 2)) j (j + 2) < l.length := by
        omega
      have hd := fun k => dsc_dswap l (scanLtGo resLt l a j i (j + 2))
        (scanGeGo resLt l a (scanLtGo resLt l a j i (j + 2)) j (j + 2)) k hi1b hj1b
      have hda : dsc (dswap l (scanLtGo resLt l a j i (j + 2))
          (scanGeGo resLt l a (scanLtGo resLt l a j i (j + 2)) j (j + 2))) a = dsc l a := by
        rw [hd a, if_neg (by omega), if_neg (by omega)]
      have hL2 : ∀ k, a < k → k < scanLtGo resLt l a j i (j + 2) + 1 →
          dsc (dswap l (scanLtGo resLt l a j i (j + 2))
            (scanGeGo resLt l a (scanLtGo resLt l a j i (j + 2)) j (j + 2))) a <
          dsc (dswap l (scanLtGo resLt l a j i (j + 2))
            (scanGeGo resLt l a (scanLtGo resLt l a j i (j + 2)) j (j + 2))) k := by
        intro k hk1 hk2
        rw [hda]
        rcases Nat.lt_or_ge k (scanLtGo resLt l a j i (j + 2)) with hk | hk
        · rw [hd k, if_neg (by omega), if_neg (by omega)]
          rcases Nat.lt_or_ge k i with hk3 | hk3
          · exact hL k hk1 hk3
          · exact s1c k hk3 hk
        · have hke : k = scanLtGo resLt l a j i (j + 2) := by omega
          rw [hd k, if_neg (by omega), if_pos hke]
          exact hvj
      have hR2 : ∀ k,
          scanGeGo resLt l a (scanLtGo resLt l a j i (j + 2)) j (j + 2) - 1 < k → k < b →
          dsc (dswap l (scanLtGo resLt l a j i (j + 2))
            (scanGeGo resLt l a (scanLtGo resLt l a j i (j + 2)) j (j + 2))) k ≤
          dsc (dswap l (scanLtGo resLt l a j i (j + 2))
            (scanGeGo resLt l a (scanLtGo resLt l a j i (j + 2)) j (j + 2))) a := by
        intro k hk1 hk2
        rw [hda]
        by_cases hkj : k = scanGeGo resLt l a (scanLtGo resLt l a j i (j + 2)) j (j + 2)
        · rw [hd k, if_pos hkj]
          exact hvi
        · have hk3 : scanGeGo resLt l a (scanLtGo resLt l a j i (j + 2)) j (j + 2) < k := by
            omega
          rw [hd k, if_neg hkj, if_neg (by omega)]
          rcases Nat.lt_or_ge j k with hk4 | hk4
          · exact hR k hk4 hk2
          · exact s2c k hk3 hk4
      have hrec := ih (dswap l (scanLtGo resLt l a j i (j + 2))
          (scanGeGo resLt l a (scanLtGo resLt l a j i (j + 2)) j (j + 2)))
        (scanLtGo resLt l a j i (j + 2) + 1)
        (scanGeGo resLt l a (scanLtGo resLt l a j i (j + 2)) j (j + 2) - 1)
        (by omega) (by omega) (by omega) (by rw [dswap_length]; exact h4) (by omega) hL2 hR2
      obtain ⟨r1, r2, r3, r4, r5, r6⟩ := hrec
      have hseg2 : SegOp l (dswap l (scanLtGo resLt l a j i (j + 2))
          (scanGeGo resLt l a (scanLtGo resLt l a j i (j + 2)) j (j + 2))) i (j + 1) :=
        segOp_dswap l (by omega) (by omega) (by omega) (by omega) (by omega)
      exact ⟨segOp_trans hseg2 (segOp_mono r1 (by omega) (by omega)),
        r2, by omega, by omega, r5, r6⟩

theorem partitionGo_spec (l : List Result) (a b pivot : Nat)
    (hab : a + 1 ≤ b) (hb : b ≤ l.length) (hp1 : a ≤ pivot) (hp2 : pivot < b) :
    SegOp l (partitionGo resLt l a b pivot).1 a b ∧
    a ≤ (partitionGo resLt l a b pivot).2.1 ∧
    (partitionGo resLt l a b pivot).2.1 < b ∧
    (∀ k, a ≤ k → k < (partitionGo resLt l a b pivot).2.1 →
      dsc (partitionGo resLt l a b pivot).1 (partitionGo resLt l a b pivot).2.1 <
        dsc (partitionGo resLt l a b pivot).1 k) ∧
    (∀ k, (partitionGo resLt l a b pivot).2.1 < k → k < b →
      dsc (partitionGo resLt l a b pivot).1 k ≤
        dsc (partitionGo resLt l a b pivot).1 (partitionGo resLt l a b pivot).2.1) := by
  unfold partitionGo
  dsimp only
  have hl0len : (dswap l a pivot).length = l.length := dswap_length l a pivot
  obtain ⟨s1a, s1b, s1c, s1d⟩ :=
    scanLtGo_spec (dswap l a pivot) a (b - 1) b (a + 1) (by omega) (by omega)
  obtain ⟨s2a, s2b, s2c, s2d⟩ :=
    scanGeGo_spec (dswap l a pivot) a (scanLtGo resLt (dswap l a pivot) a (b - 1) (a + 1) b)
      (by omega) b (b - 1) (by omega) s1b
  set l0 := dswap l a pivot with hl0
  set i1 := scanLtGo resLt l0 a (b - 1) (a + 1) b with hi1
  set j1 := scanGeGo resLt l0 a i1 (b - 1) b with hj1
  have hseg0 : SegOp l l0 a b := by
    rw [hl0]
    exact segOp_dswap l (le_refl a) (by omega) hp1 hp2 hb
  split
  case isTrue hbr =>
    dsimp only
    have hj1a : a ≤ j1 := by omega
    have hj1b2 : j1 < b := by omega
    have hj1len : j1 < l0.length := by omega
    have halen : a < l0.length := by omega
    have hd := fun k => dsc_dswap l0 j1 a k hj1len halen
    have hdm : dsc (dswap l0 j1 a) j1 = dsc l0 a := by
      rw [hd j1]
      by_cases hja : j1 = a
      · rw [if_pos hja, hja]
      · rw [if_neg hja, if_pos rfl]
    refine ⟨segOp_trans hseg0 (segOp_dswap l0 hj1a hj1b2 (le_refl a) (by omega) (by omega)),
      hj1a, hj1b2, ?_, ?_⟩
    · intro k hk1 hk2
      rw [hdm]
      rcases Nat.eq_or_lt_of_le hk1 with heq | hka
      · subst heq
        rw [hd a, if_pos rfl]
        exact s1c j1 (by omega) (by omega)
      · rw [hd k, if_neg (by omega), if_neg (by omega)]
        exact s1c k (by omega) (by omega)
    · intro k hk1 hk2
      rw [hdm]
      rw [hd k, if_neg (by omega), if_neg (by omega)]
      exact s2c k hk1 (by omega)
  case isFalse hbr =>
    have hij : i1 ≤ j1 := by omega
    have hvi : dsc l0 i1 ≤ dsc l0 a := s1d (by omega)
    have hvj : dsc l0 a < dsc l0 j1 := s2d hij
    have hstrict : i1 < j1 := by
      rcases Nat.eq_or_lt_of_le hij with heq | h
      · exfalso
        rw [← heq] at hvj
        omega
      · exact h
    have hi1len : i1 < l0.length := by omega
    have hj1len : j1 < l0.length := by omega
    have hd := fun k => dsc_dswap l0 i1 j1 k hi1len hj1len
    have hda : dsc (dswap l0 i1 j1) a = dsc l0 a := by
      rw [hd a, if_neg (by omega), if_neg (by omega)]
    have hL2 : ∀ k, a < k → k < i1 + 1 →
        dsc (dswap l0 i1 j1) a < dsc (dswap l0 i1 j1) k := by
      intro k hk1 hk2
      rw [hda]
      rcases Nat.lt_or_ge k i1 with hk | hk
      · rw [hd k, if_neg (by omega), if_neg (by omega)]
        exact s1c k (by omega) hk
      · have hke : k = i1 := by omega
        rw [hd k, if_neg (by omega), if_pos hke]
        exact hvj
    have hR2 : ∀ k, j1 - 1 < k → k < b →
        dsc (dswap l0 i1 j1) k ≤ dsc (dswap l0 i1 j1) a := by
      intro k hk1 hk2
      rw [hda]
      by_cases hkj : k = j1
      · rw [hd k, if_pos hkj]
        exact hvi
      · rw [hd k, if_neg hkj, if_neg (by omega)]
        exact s2c k (by omega) (by omega)
    have hrec := partLoopGo_spec a b b (dswap l0 i1 j1) (i1 + 1) (j1 - 1)
      (by omega) (by omega) (by omega) (by rw [dswap_length]; omega) (by omega) hL2 hR2
    obtain ⟨r1, r2, r3, r4, r5, r6⟩ := hrec
    set rl := (partLoopGo resLt a (dswap l0 i1 j1) (i1 + 1) (j1 - 1) b).1 with hrl
    set rj := (partLoopGo resLt a (dswap l0 i1 j1) (i1 + 1) (j1 - 1) b).2.2 with hrjd
    dsimp only
    have hrja : a < rj := by omega
    have hrjb : rj < b := by omega
    have hrllen : rl.length = l.length := by
      rw [r1.1, dswap_length]
      exact hl0len
    have hd2 := fun k => dsc_dswap rl rj a k (by omega) (by omega)
    have hdm2 : dsc (dswap rl rj a) rj = dsc rl a := by
      rw [hd2 rj, if_neg (by omega), if_pos rfl]
    have hsegloop : SegOp l0 rl a b := by
      have hsw : SegOp l0 (dswap l0 i1 j1) a b :=
        segOp_dswap l0 (by omega) (by omega) (by omega) (by omega) (by omega)
      exact segOp_trans hsw (segOp_mono r1 (by omega) (by omega))
    refine ⟨segOp_trans hseg0 (segOp_trans hsegloop
        (segOp_dswap rl (by omega) hrjb (le_refl a) (by omega) (by omega))),
      by omega, hrjb, ?_, ?_⟩
    · intro k hk1 hk2
      rw [hdm2]
      rcases Nat.eq_or_lt_of_le hk1 with heq | hka
      · subst heq
        rw [hd2 a, if_pos rfl]
        exact r5 rj hrja (by omega)
      · rw [hd2 k, if_neg (by omega), if_neg (by omega)]
        exact r5 k hka (by omega)
    · intro k hk1 hk2
      rw [hdm2]
      rw [hd2 k, if_neg (by omega), if_neg (by omega)]
      exact r6 k hk1 hk2

theorem partEqLoopGo_spec (a b : Nat) :
    ∀ (fuel : Nat) (l : List Result) (i j : Nat),
      a + 1 ≤ i → i ≤ j + 1 → j < b → b ≤ l.length → j + 2 ≤ i + 2 * fuel →
      (∀ k, a < k → k < i → dsc l a ≤ dsc l k) →
      (∀ k, j < k → k < b → dsc l k < dsc l a) →
      SegOp l (partEqLoopGo resLt a l i j fuel).1 i (j + 1) ∧
      (partEqLoopGo resLt a l i j fuel).2.1 = (partEqLoopGo resLt a l i j fuel).2.2 + 1 ∧
      i ≤ (partEqLoopGo resLt a l i j fuel).2.1 ∧
      (partEqLoopGo resLt a l i j fuel).2.1 ≤ j + 1 ∧
      (∀ k, a < k → k < (partEqLoopGo resLt a l i j fuel).2.1 →
        dsc (partEqLoopGo resLt a l i j fuel).1 a ≤ dsc (partEqLoopGo resLt a l i j fuel).1 k) ∧
      (∀ k, (partEqLoopGo resLt a l i j fuel).2.2 < k → k < b →
        dsc (partEqLoopGo resLt a l i j fuel).1 k < dsc (partEqLoopGo resLt a l i j fuel).1 a) := by
  intro fuel
  induction fuel with
  | zero => intro l i j h1 h2 h3 h4 h5 hL hR; omega
  | succ fuel ih =>
    intro l i j h1 h2 h3 h4 h5 hL hR
    unfold partEqLoopGo
    dsimp only
    obtain ⟨s1a, s1b, s1c, s1d⟩ := scanLeGo_spec l a j (j + 2) i (by omega) h2
    obtain ⟨s2a, s2b, s2c, s2d⟩ :=
      scanGtGo_spec l a (scanLeGo resLt l a j i (j + 2)) (by omega) (j + 2) j (by omega) s1b
    split
    case isTrue hbr =>
      dsimp only
      refine ⟨segOp_refl l i (j + 1), by omega, by omega, by omega, ?_, ?_⟩
      · intro k hk1 hk2
        rcases Nat.lt_or_ge k i with hk | hk
        · exact hL k hk1 hk
        · exact s1c k hk hk2
      · intro k hk1 hk2
        rcases Nat.lt_or_ge j k with hk | hk
        · exact hR k hk hk2
        · exact s2c k hk1 hk
    case isFalse hbr =>
      have hij : scanLeGo resLt l a j i (j + 2) ≤
          scanGtGo resLt l a (scanLeGo resLt l a j i (j + 2)) j (j + 2) := by omega
      have hvi : dsc l (scanLeGo resLt l a j i (j + 2)) < dsc l a := s1d (by omega)
      have hvj : dsc l a ≤
          dsc l (scanGtGo resLt l a (scanLeGo resLt l a j i (j + 2)) j (j + 2)) :=
        s2d hij
      have hstrict : scanLeGo resLt l a j i (j + 2) <
          scanGtGo resLt l a (scanLeGo resLt l a j i (j + 2)) j (j + 2) := by
        rcases Nat.eq_or_lt_of_le hij with heq | h
        · exfalso
          rw [← heq] at hvj
          omega
        · exact h
      have hi1b : scanLeGo resLt l a j i (j + 2) < l.length := by omega
      have hj1b : scanGtGo resLt l a (scanLeGo resLt l a j i (j + 2)) j (j + 2) < l.length := by
        omega
      have hd := fun k => dsc_dswap l (scanLeGo resLt l a j i (j + 2))
        (scanGtGo resLt l a (scanLeGo resLt l a j i (j + 2)) j (j + 2)) k hi1b hj1b
      have hda : dsc (dswap l (scanLeGo resLt l a j i (j + 2))
          (scanGtGo resLt l a (scanLeGo resLt l a j i (j + 2)) j (j + 2))) a = dsc l a := by
        rw [hd a, if_neg (by omega), if_neg (by omega)]
      have hL2 : ∀ k, a < k → k < scanLeGo resLt l a j i (j + 2) + 1 →
          dsc (dswap l (scanLeGo resLt l a j i (j + 2))
            (scanGtGo resLt l a (scanLeGo resLt l a j i (j + 2)) j (j + 2))) a ≤
          dsc (dswap l (scanLeGo resLt l a j i (j + 2))
            (scanGtGo resLt l a (scanLeGo resLt l a j i (j + 2)) j (j + 2))) k := by
        intro k hk1 hk2
        rw [hda]
        rcases Nat.lt_or_ge k (scanLeGo resLt l a j i (j + 2)) with hk | hk
        · rw [hd k, if_neg (by omega), if_neg (by omega)]
          rcases Nat.lt_or_ge k i with hk3 | hk3
          · exact hL k hk1 hk3
          · exact s1c k hk3 hk
        · have hke : k = scanLeGo resLt l a j i (j + 2) := by omega
          rw [hd k, if_neg (by omega), if_pos hke]
          exact hvj
      have hR2 : ∀ k,
          scanGtGo resLt l a (scanLeGo resLt l a j i (j + 2)) j (j + 2) - 1 < k → k < b →
          dsc (dswap l (scanLeGo resLt l a j i (j + 2))
            (scanGtGo resLt l a (scanLeGo resLt l a j i (j + 2)) j (j + 2))) k <
          dsc (dswap l (scanLeGo resLt l a j i (j + 2))
            (scanGtGo resLt l a (scanLeGo resLt l a j i (j + 2)) j (j + 2))) a := by
        intro k hk1 hk2
        rw [hda]
        by_cases hkj : k = scanGtGo resLt l a (scanLeGo resLt l a j i (j + 2)) j (j + 2)
        · rw [hd k, if_pos hkj]
          exact hvi
        · have hk3 : scanGtGo resLt l a (scanLeGo resLt l a j i (j + 2)) j (j + 2) < k := by
            omega
          rw [hd k, if_neg hkj, if_neg (by omega)]
          rcases Nat.lt_or_ge j k with hk4 | hk4
          · exact hR k hk4 hk2
          · exact s2c k hk3 hk4
      have hrec := ih (dswap l (scanLeGo resLt l a j i (j + 2))
          (scanGtGo resLt l a (scanLeGo resLt l a j i (j + 2)) j (j + 2)))
        (scanLeGo resLt l a j i (j + 2) + 1)
        (scanGtGo resLt l a (scanLeGo resLt l a j i (j + 2)) j (j + 2) - 1)
        (by omega) (by omega) (by omega) (by rw [dswap_length]; exact h4) (by omega) hL2 hR2
      obtain ⟨r1, r2, r3, r4, r5, r6⟩ := hrec
      have hseg2 : SegOp l (dswap l (scanLeGo resLt l a j i (j + 2))
          (scanGtGo resLt l a (scanLeGo resLt l a j i (j + 2)) j (j + 2))) i (j + 1) :=
        segOp_dswap l (by omega) (by omega) (by omega) (by omega) (by omega)
      exact ⟨segOp_trans hseg2 (segOp_mono r1 (by omega) (by omega)),
        r2, by omega, by omega, r5, r6⟩

theorem partitionEqGo_spec (l : List Result) (a b pivot : Nat)
    (hab : a + 1 ≤ b) (hb : b ≤ l.length) (hp1 : a ≤ pivot) (hp2 : pivot < b) :
    SegOp l (partitionEqGo resLt l a b pivot).1 a b ∧
    a + 1 ≤ (partitionEqGo resLt l a b pivot).2 ∧
    (partitionEqGo resLt l a b pivot).2 ≤ b ∧
    (∀ k, a ≤ k → k < (partitionEqGo resLt l a b pivot).2 →
      dsc l pivot ≤ dsc (partitionEqGo resLt l a b pivot).1 k) ∧
    (∀ k, (partitionEqGo resLt l a b pivot).2 ≤ k → k < b →
      dsc (partitionEqGo resLt l a b pivot).1 k < dsc l pivot) := by
  unfold partitionEqGo
  dsimp only
  have halen : a < l.length := by omega
  have hplen : pivot < l.length := by omega
  have hl0len : (dswap l a pivot).length = l.length := dswap_length l a pivot
  have hpv : dsc (dswap l a pivot) a = dsc l pivot := by
    rw [dsc_dswap l a pivot a halen hplen]
    by_cases hap : a = pivot
    · rw [if_pos hap, hap]
    · rw [if_neg hap, if_pos rfl]
  have hseg0 : SegOp l (dswap l a pivot) a b :=
    segOp_dswap l (le_refl a) (by omega) hp1 hp2 hb
  have hrec := partEqLoopGo_spec a b b (dswap l a pivot) (a + 1) (b - 1)
    (le_refl (a + 1)) (by omega) (by omega) (by omega) (by omega)
    (by intro k hk1 hk2; omega) (by intro k hk1 hk2; omega)
  obtain ⟨r1, r2, r3, r4, r5, r6⟩ := hrec
  set l0 := dswap l a pivot with hl0
  set rl := (partEqLoopGo resLt a l0 (a + 1) (b - 1) b).1 with hrl
  set rj := (partEqLoopGo resLt a l0 (a + 1) (b - 1) b).2.2 with hrjd
  have hpa : dsc rl a = dsc l pivot := by
    rw [← hpv]
    have hu := r1.2.1 a (Or.inl (by omega))
    unfold dsc
    rw [hu]
  refine ⟨segOp_trans hseg0 (segOp_mono r1 (by omega) (by omega)), by omega, by omega, ?_, ?_⟩
  · intro k hk1 hk2
    rcases Nat.eq_or_lt_of_le hk1 with heq | hka
    · subst heq
      rw [hpa]
    · rw [← hpa]
      exact r5 k hka (by omega)
  · intro k hk1 hk2
    rw [← hpa]
    exact r6 k (by omega) hk2

theorem almostScanGo_spec (l : List Result) (b : Nat) :
    ∀ (fuel i : Nat), b ≤ i + fuel → i ≤ b →
      i ≤ almostScanGo resLt l b i fuel ∧
      almostScanGo resLt l b i fuel ≤ b ∧
      (∀ k, i ≤ k → k < almostScanGo resLt l b i fuel → dsc l k ≤ dsc l (k - 1)) ∧
      (almostScanGo resLt l b i fuel < b →
        dsc l (almostScanGo resLt l b i fuel - 1) < dsc l (almostScanGo resLt l b i fuel)) := by
  intro fuel
  induction fuel with
  | zero =>
    intro i h1 h2
    unfold almostScanGo
    refine ⟨le_refl i, h2, fun k hk1 hk2 => by omega, fun hlt => by omega⟩
  | succ fuel ih =>
    intro i h1 h2
    unfold almostScanGo
    split
    case isTrue hc =>
      have hc2 : i < b ∧ resLt (dget l i) (dget l (i - 1)) = false := by
        have hx : i < b ∧ (! resLt (dget l i) (dget l (i - 1))) = true := by simpa using hc
        exact ⟨hx.1, by simpa using hx.2⟩
      obtain ⟨r1, r2, r3, r4⟩ := ih (i + 1) (by omega) (by omega)
      refine ⟨by omega, r2, fun k hk1 hk2 => ?_, r4⟩
      rcases Nat.eq_or_lt_of_le hk1 with heq | hk3
      · subst heq
        have := (resLt_false_iff _ _).mp hc2.2
        unfold dsc
        omega
      · exact r3 k hk3 hk2
    case isFalse hc =>
      refine ⟨le_refl i, h2, fun k hk1 hk2 => by omega, fun hlt => ?_⟩
      have hc2 : ¬ (i < b ∧ (! resLt (dget l i) (dget l (i - 1))) = true) := by
        simpa using hc
      have hx : resLt (dget l i) (dget l (i - 1)) = true := by
        by_contra hf
        have hff : resLt (dget l i) (dget l (i - 1)) = false := by simpa using hf
        exact hc2 ⟨hlt, by simp [hff]⟩
      have := (resLt_true_iff _ _).mp hx
      unfold dsc
      omega

theorem shiftRightGo_seg (b : Nat) :
    ∀ (fuel : Nat) (l : List Result) (j : Nat), 1 ≤ j → b ≤ l.length →
      SegOp l (shiftRightGo resLt b l j fuel) (j - 1) b := by
  intro fuel
  induction fuel with
  | zero => intro l j h1 h2; exact segOp_refl l (j - 1) b
  | succ fuel ih =>
    intro l j h1 h2
    unfold shiftRightGo
    split
    case isTrue => exact segOp_refl l (j - 1) b
    case isFalse hc1 =>
      split
      case isTrue => exact segOp_refl l (j - 1) b
      case isFalse hc2 =>
        have hjb : j < b := by omega
        have hseg : SegOp l (dswap l j (j - 1)) (j - 1) b :=
          segOp_dswap l (by omega) hjb (le_refl (j - 1)) (by omega) h2
        have hrec := ih (dswap l j (j - 1)) (j + 1) (by omega)
          (by rw [dswap_length]; exact h2)
        exact segOp_trans hseg (segOp_mono hrec (by omega) (le_refl b))

theorem shiftLeftGo_spec (a b p0 : Nat) :
    ∀ (p : Nat) (l : List Result),
      a ≤ p → p ≤ p0 → p0 < b → b ≤ l.length →
      (0 < a → ∀ k, a ≤ k → k < b → dsc l k ≤ dsc l (a - 1)) →
      (∀ k, a < k → k ≤ p0 → k ≠ p → dsc l k ≤ dsc l (k - 1)) →
      (a < p → p < p0 → dsc l (p + 1) ≤ dsc l (p - 1)) →
      SegOp l (shiftLeftGo resLt l p) a b ∧
      (∀ k, a < k → k ≤ p0 →
        dsc (shiftLeftGo resLt l p) k ≤ dsc (shiftLeftGo resLt l p) (k - 1)) := by
  intro p
  induction p with
  | zero =>
    intro l h1 h2 h3 h4 hlb hpairs hextra
    unfold shiftLeftGo
    refine ⟨segOp_refl l a b, ?_⟩
    intro k hk1 hk2
    exact hpairs k hk1 hk2 (by omega)
  | succ p ih =>
    intro l h1 h2 h3 h4 hlb hpairs hextra
    unfold shiftLeftGo
    split
    case isTrue hstop =>
      have hok : dsc l (p + 1) ≤ dsc l p := by
        have hx : resLt (dget l (p + 1)) (dget l p) = false := by simpa using hstop
        have := (resLt_false_iff _ _).mp hx
        unfold dsc
        omega
      refine ⟨segOp_refl l a b, ?_⟩
      intro k hk1 hk2
      by_cases hk3 : k = p + 1
      · subst hk3
        simpa using hok
      · exact hpairs k hk1 hk2 hk3
    case isFalse hswap =>
      have hoo : dsc l p < dsc l (p + 1) := by
        have hx : resLt (dget l (p + 1)) (dget l p) = true := by
          simpa using hswap
        have := (resLt_true_iff _ _).mp hx
        unfold dsc
        omega
      have hap : a ≤ p := by
        by_contra hc
        have hae : a = p + 1 := by omega
        have ha0 : 0 < a := by omega
        have hx := hlb ha0 (p + 1) (by omega) (by omega)
        rw [hae] at hx
        simp at hx
        omega
      have hlen2 : (dswap l (p + 1) p).length = l.length := dswap_length l (p + 1) p
      have hd := fun k => dsc_dswap l (p + 1) p k (by omega) (by omega)
      have hseg : SegOp l (dswap l (p + 1) p) a b :=
        segOp_dswap l (by omega) (by omega) hap (by omega) h4
      have hdp1 : dsc (dswap l (p + 1) p) (p + 1) = dsc l p := by
        rw [hd (p + 1), if_neg (by omega), if_pos rfl]
      have hdp : dsc (dswap l (p + 1) p) p = dsc l (p + 1) := by
        rw [hd p, if_pos rfl]
      have hnlb : 0 < a → ∀ k, a ≤ k → k < b →
          dsc (dswap l (p + 1) p) k ≤ dsc (dswap l (p + 1) p) (a - 1) := by
        intro ha0
        exact lbound_of_segOp l (dswap l (p + 1) p) a b ha0 hseg (hlb ha0)
      have hnpairs : ∀ k, a < k → k ≤ p0 → k ≠ p →
          dsc (dswap l (p + 1) p) k ≤ dsc (dswap l (p + 1) p) (k - 1) := by
        intro k hk1 hk2 hk3
        by_cases hk4 : k = p + 1
        · subst hk4
          rw [hdp1]
          have hx : dsc (dswap l (p + 1) p) (p + 1 - 1) = dsc l (p + 1) := by
            simpa using hdp
          rw [hx]
          omega
        · by_cases hk5 : k = p + 2
          · subst hk5
            have hu1 : dsc (dswap l (p + 1) p) (p + 2) = dsc l (p + 2) := by
              rw [hd (p + 2), if_neg (by omega), if_neg (by omega)]
            have hu2 : dsc (dswap l (p + 1) p) (p + 2 - 1) = dsc l p := by
              have hx : p + 2 - 1 = p + 1 := by omega
              rw [hx, hdp1]
            rw [hu1, hu2]
            exact hextra (by omega) (by omega)
          · have hu1 : dsc (dswap l (p + 1) p) k = dsc l k := by
              rw [hd k, if_neg (by omega), if_neg hk4]
            have hu2 : dsc (dswap l (p + 1) p) (k - 1) = dsc l (k - 1) := by
              rw [hd (k - 1), if_neg (by omega), if_neg (by omega)]
            rw [hu1, hu2]
            exact hpairs k hk1 hk2 hk4
      have hnextra : a < p → p < p0 →
          dsc (dswap l (p + 1) p) (p + 1) ≤ dsc (dswap l (p + 1) p) (p - 1) := by
        intro hx1 hx2
        rw [hdp1]
        have hu2 : dsc (dswap l (p + 1) p) (p - 1) = dsc l (p - 1) := by
          rw [hd (p - 1), if_neg (by omega), if_neg (by omega)]
        rw [hu2]
        exact hpairs p hx1 (by omega) (by omega)
      obtain ⟨r1, r2⟩ := ih (dswap l (p + 1) p) hap (by omega) h3
        (by rw [hlen2]; exact h4) hnlb hnpairs hnextra
      exact ⟨segOp_trans hseg r1, r2⟩

theorem almostSortGo_spec (a b : Nat) :
    ∀ (steps : Nat) (l : List Result) (i : Nat),
      a + 1 ≤ i → i ≤ b → b ≤ l.length →
      (0 < a → ∀ k, a ≤ k → k < b → dsc l k ≤ dsc l (a - 1)) →
      (∀ k, a < k → k < i → dsc l k ≤ dsc l (k - 1)) →
      SegOp l (almostSortGo resLt a b l i steps).1 a b ∧
      ((almostSortGo resLt a b l i steps).2 = true →
        SortedSeg (almostSortGo resLt a b l i steps).1 a b) := by
  intro steps
  induction steps with
  | zero =>
    intro l i h1 h2 h3 hlb hP
    unfold almostSortGo
    exact ⟨segOp_refl l a b, fun hc => by simp at hc⟩
  | succ steps ih =>
    intro l i h1 h2 h3 hlb hP
    unfold almostSortGo
    dsimp only
    obtain ⟨s1, s2, s3, s4⟩ := almostScanGo_spec l b b i (by omega) h2
    set i1 := almostScanGo resLt l b i b with hi1def
    split
    case isTrue heq =>
      refine ⟨segOp_refl l a b, fun _ => ?_⟩
      apply sortedSeg_of_adj
      intro k hk1 hk2
      rcases Nat.lt_or_ge k i with hk | hk
      · exact hP k hk1 hk
      · exact s3 k hk (by omega)
    case isFalse hne =>
      split
      case isTrue => exact ⟨segOp_refl l a b, fun hc => by simp at hc⟩
      case isFalse hge =>
        have hi1lt : i1 < b := Nat.lt_of_le_of_ne s2 hne
        have hi1ge : a + 1 ≤ i1 := by omega
        have hPi1 : ∀ k, a < k → k < i1 → dsc l k ≤ dsc l (k - 1) := by
          intro k hk1 hk2
          rcases Nat.lt_or_ge k i with hk | hk
          · exact hP k hk1 hk
          · exact s3 k hk hk2
        have hseg2 : SegOp l (dswap l i1 (i1 - 1)) a b :=
          segOp_dswap l (by omega) hi1lt (by omega) (by omega) h3
        have hlen2 : (dswap l i1 (i1 - 1)).length = l.length := dswap_length l i1 (i1 - 1)
        have hd := fun k => dsc_dswap l i1 (i1 - 1) k (by omega) (by omega)
        have hP2 : ∀ k, a < k → k ≤ i1 - 1 → k ≠ i1 - 1 →
            dsc (dswap l i1 (i1 - 1)) k ≤ dsc (dswap l i1 (i1 - 1)) (k - 1) := by
          intro k hk1 hk2 hk3
          have hu1 : dsc (dswap l i1 (i1 - 1)) k = dsc l k := by
            rw [hd k, if_neg (by omega), if_neg (by omega)]
          have hu2 : dsc (dswap l i1 (i1 - 1)) (k - 1) = dsc l (k - 1) := by
            rw [hd (k - 1), if_neg (by omega), if_neg (by omega)]
          rw [hu1, hu2]
          exact hPi1 k hk1 (by omega)
        have hlb2 : 0 < a → ∀ k, a ≤ k → k < b →
            dsc (dswap l i1 (i1 - 1)) k ≤ dsc (dswap l i1 (i1 - 1)) (a - 1) :=
          fun ha0 => lbound_of_segOp l _ a b ha0 hseg2 (hlb ha0)
        set lmid := if 2 ≤ i1 - a then shiftLeftGo resLt (dswap l i1 (i1 - 1)) (i1 - 1)
          else dswap l i1 (i1 - 1) with hlmid
        have hmidfacts : SegOp l lmid a b ∧
            (∀ k, a < k → k < i1 → dsc lmid k ≤ dsc lmid (k - 1)) := by
          rw [hlmid]
          by_cases hshl : 2 ≤ i1 - a
          · rw [if_pos hshl]
            obtain ⟨g1, g2⟩ := shiftLeftGo_spec a b (i1 - 1) (i1 - 1) (dswap l i1 (i1 - 1))
              (by omega) (le_refl (i1 - 1)) (by omega) (by rw [hlen2]; exact h3)
              hlb2 hP2 (by intro hx1 hx2; omega)
            refine ⟨segOp_trans hseg2 g1, ?_⟩
            intro k hk1 hk2
            exact g2 k hk1 (by omega)
          · rw [if_neg hshl]
            refine ⟨hseg2, ?_⟩
            intro k hk1 hk2
            exfalso
            omega
        obtain ⟨m1, m2⟩ := hmidfacts
        have hmlen : lmid.length = l.length := m1.1
        set lfin := if 2 ≤ b - i1 then shiftRightGo resLt b lmid (i1 + 1) b else lmid
          with hlfin
        have hfinfacts : SegOp l lfin a b ∧
            (∀ k, a < k → k < i1 → dsc lfin k ≤ dsc lfin (k - 1)) := by
          rw [hlfin]
          by_cases hshr : 2 ≤ b - i1
          · rw [if_pos hshr]
            have hsr := shiftRightGo_seg b b lmid (i1 + 1) (by omega)
              (by rw [hmlen]; exact h3)
            have hsr2 : SegOp lmid (shiftRightGo resLt b lmid (i1 + 1) b) i1 b := by
              have hx : i1 + 1 - 1 = i1 := by omega
              rw [← hx]
              exact hsr
            refine ⟨segOp_trans m1 (segOp_mono hsr2 (by omega) (le_refl b)), ?_⟩
            intro k hk1 hk2
            have hu1 : dget (shiftRightGo resLt b lmid (i1 + 1) b) k = dget lmid k :=
              hsr2.2.1 k (Or.inl hk2)
            have hu2 : dget (shiftRightGo resLt b lmid (i1 + 1) b) (k - 1) = dget lmid (k - 1) :=
              hsr2.2.1 (k - 1) (Or.inl (by omega))
            unfold dsc
            rw [hu1, hu2]
            exact m2 k hk1 hk2
          · rw [if_neg hshr]
            exact ⟨m1, m2⟩
        obtain ⟨f1, f2⟩ := hfinfacts
        have hlb4 : 0 < a → ∀ k, a ≤ k → k < b → dsc lfin k ≤ dsc lfin (a - 1) :=
          fun ha0 => lbound_of_segOp l lfin a b ha0 f1 (hlb ha0)
        have hrec := ih lfin i1 hi1ge (by omega) (by rw [f1.1]; exact h3) hlb4 f2
        exact ⟨segOp_trans f1 hrec.1, hrec.2⟩

theorem subOf_le {root c : Nat} (h : SubOf root c) : root ≤ c := by
  induction h with
  | base => exact le_refl root
  | step c hc hsub ih => omega

theorem subOf_trans {a b c : Nat} (h1 : SubOf a b) (h2 : SubOf b c) : SubOf a c := by
  induction h2 with
  | base => exact h1
  | step c hc hsub ih => exact SubOf.step c hc ih

theorem subOf_child {root c : Nat} (h1 : 0 < c) (h2 : (c - 1) / 2 = root) : SubOf root c :=
  SubOf.step c h1 (by rw [h2]; exact SubOf.base)

theorem not_subOf_low {m c : Nat} (hlt : c < m) : ¬ SubOf m c :=
  fun h => absurd (subOf_le h) (by omega)

theorem not_subOf_of {m s : Nat} (hne : s ≠ m) (hp : (s - 1) / 2 < m) : ¬ SubOf m s := by
  intro h
  cases h with
  | base => exact hne rfl
  | step s hc hsub => exact absurd (subOf_le hsub) (by omega)

theorem heap_root_min (l : List Result) (first hi : Nat)
    (hH : ∀ c, 0 < c → c < hi → dsc l (first + (c - 1) / 2) ≤ dsc l (first + c)) :
    ∀ c, c < hi → dsc l first ≤ dsc l (first + c) := by
  intro c
  induction c using Nat.strong_induction_on with
  | _ c ih =>
    intro hc
    rcases Nat.eq_zero_or_pos c with rfl | hpos
    · simp
    · have hp := hH c hpos hc
      have hq := ih ((c - 1) / 2) (by omega) (by omega)
      omega

theorem siftDown_after (hi first fuel : Nat) (l : List Result) (root m : Nat)
    (hlen : first + hi ≤ l.length)
    (hm : (m - 1) / 2 = root) (hm0 : 0 < m) (hm3 : m < hi)
    (hother : ∀ s, 0 < s → (s - 1) / 2 = root → s < hi → dsc l (first + m) ≤ dsc l (first + s))
    (hfuel : hi ≤ fuel + m)
    (hH : ∀ c, 0 < c → c < hi → root < (c - 1) / 2 →
      dsc l (first + (c - 1) / 2) ≤ dsc l (first + c))
    (IH : ∀ (l2 : List Result) (root2 : Nat), first + hi ≤ l2.length → hi ≤ fuel + root2 →
      (∀ c, 0 < c → c < hi → root2 < (c - 1) / 2 →
        dsc l2 (first + (c - 1) / 2) ≤ dsc l2 (first + c)) →
      SegOp l2 (siftDownGo resLt fuel l2 root2 hi first) (first + root2) (first + hi) ∧
      (∀ k, k < hi → ¬ SubOf root2 k →
        dget (siftDownGo resLt fuel l2 root2 hi first) (first + k) = dget l2 (first + k)) ∧
      (dsc (siftDownGo resLt fuel l2 root2 hi first) (first + root2) =
          dsc l2 (first + root2) ∨
        ∃ c, (c - 1) / 2 = root2 ∧ 0 < c ∧ c < hi ∧
          dsc (siftDownGo resLt fuel l2 root2 hi first) (first + root2) =
            dsc l2 (first + c)) ∧
      (∀ c, 0 < c → c < hi → root2 ≤ (c - 1) / 2 →
        dsc (siftDownGo resLt fuel l2 root2 hi first) (first + (c - 1) / 2) ≤
          dsc (siftDownGo resLt fuel l2 root2 hi first) (first + c)))
    (hswapval : dsc l (first + m) < dsc l (first + root)) :
    SegOp l (siftDownGo resLt fuel (dswap l (first + root) (first + m)) m hi first)
      (first + root) (first + hi) ∧
    (∀ k, k < hi → ¬ SubOf root k →
      dget (siftDownGo resLt fuel (dswap l (first + root) (first + m)) m hi first)
        (first + k) = dget l (first + k)) ∧
    (dsc (siftDownGo resLt fuel (dswap l (first + root) (first + m)) m hi first)
        (first + root) = dsc l (first + root) ∨
      ∃ c, (c - 1) / 2 = root ∧ 0 < c ∧ c < hi ∧
        dsc (siftDownGo resLt fuel (dswap l (first + root) (first + m)) m hi first)
          (first + root) = dsc l (first + c)) ∧
    (∀ c, 0 < c → c < hi → root ≤ (c - 1) / 2 →
      dsc (siftDownGo resLt fuel (dswap l (first + root) (first + m)) m hi first)
        (first + (c - 1) / 2) ≤
        dsc (siftDownGo resLt fuel (dswap l (first + root) (first + m)) m hi first)
          (first + c)) := by
  have hrm : root < m := by omega
  have hrb : first + root < l.length := by omega
  have hmb : first + m < l.length := by omega
  have hsubm : SubOf root m := subOf_child hm0 hm
  have hd := fun k => dsc_dswap l (first + root) (first + m) k hrb hmb
  have hdg := fun k => dget_dswap l (first + root) (first + m) k hrb hmb
  have hdroot : dsc (dswap l (first + root) (first + m)) (first + root) =
      dsc l (first + m) := by
    rw [hd (first + root), if_neg (by omega), if_pos rfl]
  have hdm2 : dsc (dswap l (first + root) (first + m)) (first + m) =
      dsc l (first + root) := by
    rw [hd (first + m), if_pos rfl]
  have hdother : ∀ k, k ≠ root → k ≠ m →
      dsc (dswap l (first + root) (first + m)) (first + k) = dsc l (first + k) := by
    intro k hk1 hk2
    rw [hd (first + k), if_neg (by omega), if_neg (by omega)]
  have hdgother : ∀ k, k ≠ root → k ≠ m →
      dget (dswap l (first + root) (first + m)) (first + k) = dget l (first + k) := by
    intro k hk1 hk2
    rw [hdg (first + k), if_neg (by omega), if_neg (by omega)]
  have hH2 : ∀ c, 0 < c → c < hi → m < (c - 1) / 2 →
      dsc (dswap l (first + root) (first + m)) (first + (c - 1) / 2) ≤
        dsc (dswap l (first + root) (first + m)) (first + c) := by
    intro c hc0 hchi hcp
    rw [hdother ((c - 1) / 2) (by omega) (by omega), hdother c (by omega) (by omega)]
    exact hH c hc0 hchi (by omega)
  obtain ⟨i1, i2, i3, i4⟩ := IH (dswap l (first + root) (first + m)) m
    (by rw [dswap_length]; exact hlen) hfuel hH2
  have hnr : ¬ SubOf m root := not_subOf_low hrm
  have hrootval : dsc (siftDownGo resLt fuel (dswap l (first + root) (first + m)) m hi first)
      (first + root) = dsc l (first + m) := by
    have e1 := i2 root (by omega) hnr
    unfold dsc
    rw [e1]
    have e2 := hdroot
    unfold dsc at e2
    exact e2
  refine ⟨?_, ?_, ?_, ?_⟩
  · exact segOp_trans
      (segOp_dswap l (le_refl (first + root)) (by omega) (by omega) (by omega) hlen)
      (segOp_mono i1 (by omega) (le_refl (first + hi)))
  · intro k hk hns
    have hkr : k ≠ root := fun he => hns (he ▸ SubOf.base)
    have hkm : k ≠ m := fun he => hns (he ▸ hsubm)
    have hnsm : ¬ SubOf m k := fun hsub => hns (subOf_trans hsubm hsub)
    rw [i2 k hk hnsm, hdgother k hkr hkm]
  · right
    exact ⟨m, hm, hm0, hm3, hrootval⟩
  · intro c hc0 hchi hcp
    rcases Nat.lt_or_ge ((c - 1) / 2) m with hpm | hpm
    · rcases Nat.eq_or_lt_of_le hcp with hpe | hpgt
      · by_cases hcm : c = m
        · rw [← hpe, hrootval, hcm]
          rcases i3 with hcase | ⟨cm, hcm1, hcm0, hcm2, hcase⟩
          · rw [hcase, hdm2]
            omega
          · rw [hcase, hdother cm (by omega) (by omega)]
            have hq := hH cm hcm0 hcm2 (by omega)
            rw [hcm1] at hq
            exact hq
        · have hnsc : ¬ SubOf m c := not_subOf_of hcm (by omega)
          have e1 := i2 c hchi hnsc
          have goal2 : dsc (siftDownGo resLt fuel (dswap l (first + root) (first + m)) m
              hi first) (first + c) = dsc l (first + c) := by
            unfold dsc
            rw [e1]
            have e2 := hdgother c (by omega) hcm
            rw [e2]
          rw [← hpe, hrootval, goal2]
          exact hother c hc0 (by omega) hchi
      · have hpne : (c - 1) / 2 ≠ m := by omega
        have hcm : c ≠ m := by
          intro he
          subst he
          omega
        have hcr : c ≠ root := by omega
        have hnsp : ¬ SubOf m ((c - 1) / 2) := not_subOf_low hpm
        have hnsc : ¬ SubOf m c := not_subOf_of hcm (by omega)
        have e1 := i2 ((c - 1) / 2) (by omega) hnsp
        have e2 := i2 c hchi hnsc
        have g1 : dsc (siftDownGo resLt fuel (dswap l (first + root) (first + m)) m hi first)
            (first + (c - 1) / 2) = dsc l (first + (c - 1) / 2) := by
          unfold dsc
          rw [e1, hdgother ((c - 1) / 2) (by omega) hpne]
        have g2 : dsc (siftDownGo resLt fuel (dswap l (first + root) (first + m)) m hi first)
            (first + c) = dsc l (first + c) := by
          unfold dsc
          rw [e2, hdgother c hcr hcm]
        rw [g1, g2]
        exact hH c hc0 hchi hpgt
    · exact i4 c hc0 hchi hpm

theorem siftDownGo_spec (hi first : Nat) :
    ∀ (fuel : Nat) (l : List Result) (root : Nat),
      first + hi ≤ l.length → hi ≤ fuel + root →
      (∀ c, 0 < c → c < hi → root < (c - 1) / 2 →
        dsc l (first + (c - 1) / 2) ≤ dsc l (first + c)) →
      SegOp l (siftDownGo resLt fuel l root hi first) (first + root) (first + hi) ∧
      (∀ k, k < hi → ¬ SubOf root k →
        dget (siftDownGo resLt fuel l root hi first) (first + k) = dget l (first + k)) ∧
      (dsc (siftDownGo resLt fuel l root hi first) (first + root) = dsc l (first + root) ∨
        ∃ c, (c - 1) / 2 = root ∧ 0 < c ∧ c < hi ∧
          dsc (siftDownGo resLt fuel l root hi first) (first + root) = dsc l (first + c)) ∧
      (∀ c, 0 < c → c < hi → root ≤ (c - 1) / 2 →
        dsc (siftDownGo resLt fuel l root hi first) (first + (c - 1) / 2) ≤
          dsc (siftDownGo resLt fuel l root hi first) (first + c)) := by
  intro fuel
  induction fuel with
  | zero =>
    intro l root h1 h2 hH
    unfold siftDownGo
    refine ⟨segOp_refl l _ _, fun k hk hns => rfl, Or.inl rfl, ?_⟩
    intro c hc0 hchi hcp
    rcases Nat.eq_or_lt_of_le hcp with hpe | hpgt
    · omega
    · exact hH c hc0 hchi hpgt
  | succ fuel ih =>
    intro l root h1 h2 hH
    unfold siftDownGo
    dsimp only
    split
    case isTrue hout =>
      refine ⟨segOp_refl l _ _, fun k hk hns => rfl, Or.inl rfl, ?_⟩
      intro c hc0 hchi hcp
      rcases Nat.eq_or_lt_of_le hcp with hpe | hpgt
      · omega
      · exact hH c hc0 hchi hpgt
    case isFalse hout =>
      have hmfacts : ∃ m,
          (if (2 * root + 1 + 1 < hi &&
              resLt (dget l (first + (2 * root + 1)))
                (dget l (first + (2 * root + 1) + 1))) = true
            then 2 * root + 1 + 1 else 2 * root + 1) = m ∧
          (m - 1) / 2 = root ∧ 0 < m ∧ m < hi ∧
          (∀ s, 0 < s → (s - 1) / 2 = root → s < hi →
            dsc l (first + m) ≤ dsc l (first + s)) := by
        by_cases hsel : (2 * root + 1 + 1 < hi &&
            resLt (dget l (first + (2 * root + 1)))
              (dget l (first + (2 * root + 1) + 1))) = true
        · have hsel2 : 2 * root + 1 + 1 < hi ∧
              resLt (dget l (first + (2 * root + 1)))
                (dget l (first + (2 * root + 1) + 1)) = true := by
            simpa using hsel
          have hval := (resLt_true_iff _ _).mp hsel2.2
          refine ⟨2 * root + 1 + 1, by rw [if_pos hsel], by omega, by omega, hsel2.1, ?_⟩
          intro s hs0 hsp hshi
          have hs : s = 2 * root + 1 ∨ s = 2 * root + 1 + 1 := by omega
          rcases hs with rfl | rfl
          · have hidx : first + (2 * root + 1 + 1) = first + (2 * root + 1) + 1 := by omega
            unfold dsc
            rw [hidx]
            omega
          · exact le_refl _
        · refine ⟨2 * root + 1, by rw [if_neg hsel], by omega, by omega, by omega, ?_⟩
          intro s hs0 hsp hshi
          have hs : s = 2 * root + 1 ∨ s = 2 * root + 1 + 1 := by omega
          rcases hs with rfl | rfl
          · exact le_refl _
          · have hsel2 : resLt (dget l (first + (2 * root + 1)))
                (dget l (first + (2 * root + 1) + 1)) = false := by
              by_contra hf
              have ht : resLt (dget l (first + (2 * root + 1)))
                  (dget l (first + (2 * root + 1) + 1)) = true := by simpa using hf
              exact hsel (by simp [ht, hshi])
            have hval := (resLt_false_iff _ _).mp hsel2
            have hidx : first + (2 * root + 1 + 1) = first + (2 * root + 1) + 1 := by omega
            unfold dsc
            rw [hidx]
            omega
      obtain ⟨m, hme, hm, hm0, hm3, hother⟩ := hmfacts
      rw [hme]
      split
      case isTrue hstop =>
        have hstop2 : dsc l (first + root) ≤ dsc l (first + m) := by
          have hx : resLt (dget l (first + root)) (dget l (first + m)) = false := by
            simpa using hstop
          have := (resLt_false_iff _ _).mp hx
          unfold dsc
          omega
        refine ⟨segOp_refl l _ _, fun k hk hns => rfl, Or.inl rfl, ?_⟩
        intro c hc0 hchi hcp
        rcases Nat.eq_or_lt_of_le hcp with hpe | hpgt
        · have hq := hother c hc0 (by omega) hchi
          rw [← hpe]
          omega
        · exact hH c hc0 hchi hpgt
      case isFalse hswap =>
        have hswapval : dsc l (first + m) < dsc l (first + root) := by
          have hx : resLt (dget l (first + root)) (dget l (first + m)) = true := by
            simpa using hswap
          have := (resLt_true_iff _ _).mp hx
          unfold dsc
          omega
        exact siftDown_after hi first fuel l root m h1 hm hm0 hm3 hother
          (by omega) hH ih hswapval

theorem heapBuildGo_spec (hi first : Nat) :
    ∀ (count : Nat) (l : List Result), first + hi ≤ l.length →
      (∀ c, 0 < c → c < hi → count ≤ (c - 1) / 2 →
        dsc l (first + (c - 1) / 2) ≤ dsc l (first + c)) →
      SegOp l (heapBuildGo resLt hi first count l) first (first + hi) ∧
      (∀ c, 0 < c → c < hi →
        dsc (heapBuildGo resLt hi first count l) (first + (c - 1) / 2) ≤
          dsc (heapBuildGo resLt hi first count l) (first + c)) := by
  intro count
  induction count with
  | zero =>
    intro l hlen hH
    unfold heapBuildGo
    exact ⟨segOp_refl l first (first + hi), fun c hc0 hchi => hH c hc0 hchi (Nat.zero_le _)⟩
  | succ k ih =>
    intro l hlen hH
    unfold heapBuildGo
    obtain ⟨s1, s2, s3, s4⟩ := siftDownGo_spec hi first (hi + 1) l k hlen (by omega)
      (fun c hc0 hchi hcp => hH c hc0 hchi (by omega))
    obtain ⟨r1, r2⟩ := ih (siftDownGo resLt (hi + 1) l k hi first)
      (by rw [s1.1]; exact hlen) (fun c hc0 hchi hcp => s4 c hc0 hchi (by omega))
    exact ⟨segOp_trans (segOp_mono s1 (by omega) (le_refl (first + hi))) r1, r2⟩

theorem heapPopGo_spec (first hi0 : Nat) :
    ∀ (k : Nat) (l : List Result), k ≤ hi0 → first + hi0 ≤ l.length →
      (∀ c, 0 < c → c < k → dsc l (first + (c - 1) / 2) ≤ dsc l (first + c)) →
      SortedSeg l (first + k) (first + hi0) →
      (∀ x y, first ≤ x → x < first + k → first + k ≤ y → y < first + hi0 →
        dsc l y ≤ dsc l x) →
      SegOp l (heapPopGo resLt first k l) first (first + k) ∧
      SortedSeg (heapPopGo resLt first k l) first (first + hi0) := by
  intro k
  induction k with
  | zero =>
    intro l hk hlen hheap hsorted hcross
    unfold heapPopGo
    refine ⟨segOp_refl l first (first + 0), ?_⟩
    intro i j h1 h2 h3
    exact hsorted i j (by omega) h2 h3
  | succ k ih =>
    intro l hk hlen hheap hsorted hcross
    unfold heapPopGo
    have hb1 : first < l.length := by omega
    have hb2 : first + k < l.length := by omega
    have hrmin := heap_root_min l first (k + 1) hheap
    have hd := fun x => dsc_dswap l first (first + k) x hb1 hb2
    have hdg := fun x => dget_dswap l first (first + k) x hb1 hb2
    have hd1 : dsc (dswap l first (first + k)) (first + k) = dsc l first := by
      rw [hd (first + k), if_pos rfl]
    have hd0 : dsc (dswap l first (first + k)) first = dsc l (first + k) := by
      rw [hd first]
      by_cases hk0 : first = first + k
      · rw [if_pos hk0, ← hk0]
      · rw [if_neg hk0, if_pos rfl]
    have hdo : ∀ x, x ≠ first → x ≠ first + k →
        dsc (dswap l first (first + k)) x = dsc l x := by
      intro x hx1 hx2
      rw [hd x, if_neg hx2, if_neg hx1]
    have hdgo : ∀ x, x ≠ first → x ≠ first + k →
        dget (dswap l first (first + k)) x = dget l x := by
      intro x hx1 hx2
      rw [hdg x, if_neg hx2, if_neg hx1]
    have hH2 : ∀ c, 0 < c → c < k → 0 < (c - 1) / 2 →
        dsc (dswap l first (first + k)) (first + (c - 1) / 2) ≤
          dsc (dswap l first (first + k)) (first + c) := by
      intro c hc0 hck hcp
      rw [hdo (first + (c - 1) / 2) (by omega) (by omega),
          hdo (first + c) (by omega) (by omega)]
      exact hheap c hc0 (by omega)
    obtain ⟨s1, s2, s3, s4⟩ := siftDownGo_spec k first (k + 2) (dswap l first (first + k)) 0
      (by rw [dswap_length]; omega) (by omega) hH2
    set l2 := siftDownGo resLt (k + 2) (dswap l first (first + k)) 0 k first with hl2
    have hl2len : l2.length = l.length := by
      rw [s1.1, dswap_length]
    have hout2 : ∀ x, first + k ≤ x → dget l2 x = dget (dswap l first (first + k)) x := by
      intro x hx
      exact s1.2.1 x (Or.inr (by omega))
    have hpop : dsc l2 (first + k) = dsc l first := by
      unfold dsc
      rw [hout2 (first + k) (le_refl (first + k))]
      have hx := hd1
      unfold dsc at hx
      exact hx
    have hval2 : ∀ x, first ≤ x → x < first + k →
        ∃ x3, first ≤ x3 ∧ x3 < first + k + 1 ∧ dsc l2 x = dsc l x3 := by
      intro x hx1 hx2
      obtain ⟨x2, hx21, hx22, hx23⟩ := s1.2.2 x (by omega) (by omega)
      by_cases hx2f : x2 = first
      · refine ⟨first + k, by omega, by omega, ?_⟩
        unfold dsc
        rw [hx23, hx2f]
        have hy := hd0
        unfold dsc at hy
        exact hy
      · refine ⟨x2, by omega, by omega, ?_⟩
        unfold dsc
        rw [hx23]
        have hy := hdo x2 hx2f (by omega)
        unfold dsc at hy
        exact hy
    have hsorted2 : SortedSeg l2 (first + k) (first + hi0) := by
      intro i j h1 h2 h3
      have hj2 : dsc l2 j = dsc l j := by
        unfold dsc
        rw [hout2 j (by omega), hdgo j (by omega) (by omega)]
      rcases Nat.eq_or_lt_of_le h1 with heq | hgt
      · subst heq
        rw [hpop, hj2]
        exact hcross first j (le_refl first) (by omega) (by omega) h3
      · have hi2 : dsc l2 i = dsc l i := by
          unfold dsc
          rw [hout2 i (by omega), hdgo i (by omega) (by omega)]
        rw [hi2, hj2]
        exact hsorted i j (by omega) h2 h3
    have hcross2 : ∀ x y, first ≤ x → x < first + k → first + k ≤ y → y < first + hi0 →
        dsc l2 y ≤ dsc l2 x := by
      intro x y hx1 hx2 hy1 hy2
      obtain ⟨x3, hx31, hx32, hx33⟩ := hval2 x hx1 hx2
      rw [hx33]
      rcases Nat.eq_or_lt_of_le hy1 with heq | hgt
      · subst heq
        rw [hpop]
        have hr := hrmin (x3 - first) (by omega)
        have hx3e : first + (x3 - first) = x3 := by omega
        rw [hx3e] at hr
        exact hr
      · have hy3 : dsc l2 y = dsc l y := by
          unfold dsc
          rw [hout2 y (by omega), hdgo y (by omega) (by omega)]
        rw [hy3]
        exact hcross x3 y hx31 (by omega) (by omega) hy2
    obtain ⟨r1, r2⟩ := ih l2 (by omega) (by rw [hl2len]; exact hlen)
      (fun c hc0 hck => s4 c hc0 hck (Nat.zero_le _)) hsorted2 hcross2
    constructor
    · have hsw : SegOp l (dswap l first (first + k)) first (first + (k + 1)) :=
        segOp_dswap l (le_refl first) (by omega) (by omega) (by omega) (by omega)
      have hsd : SegOp (dswap l first (first + k)) l2 first (first + (k + 1)) :=
        segOp_mono s1 (by omega) (by omega)
      exact segOp_trans hsw (segOp_trans hsd (segOp_mono r1 (le_refl first) (by omega)))
    · exact r2

theorem heapSortGo_spec (l : List Result) (a b : Nat) (hab : a ≤ b) (hb : b ≤ l.length) :
    SegOp l (heapSortGo resLt l a b) a b ∧ SortedSeg (heapSortGo resLt l a b) a b := by
  unfold heapSortGo
  dsimp only
  obtain ⟨b1, b2⟩ := heapBuildGo_spec (b - a) a ((b - a - 1) / 2 + 1) l (by omega)
    (by intro c hc0 hchi hcp; exfalso; omega)
  obtain ⟨p1, p2⟩ := heapPopGo_spec a (b - a) (b - a)
    (heapBuildGo resLt (b - a) a ((b - a - 1) / 2 + 1) l) (le_refl (b - a))
    (by rw [b1.1]; omega) b2
    (by intro i j h1 h2 h3; omega)
    (by intro x y h1 h2 h3 h4; omega)
  constructor
  · exact segOp_trans (segOp_mono b1 (le_refl a) (by omega))
      (segOp_mono p1 (le_refl a) (by omega))
  · intro i j h1 h2 h3
    exact p2 i j h1 h2 (by omega)

theorem order2Go_eq [Inhabited α] (lt : α → α → Bool) (l : List α) (a b s : Nat)
    (x y s2 : Nat) (h : order2Go lt l a b s = (x, y, s2)) :
    (x = a ∧ y = b) ∨ (x = b ∧ y = a) := by
  unfold order2Go at h
  split at h
  · right
    have h2 : b = x ∧ a = y ∧ s + 1 = s2 := by simpa using h
    exact ⟨h2.1.symm, h2.2.1.symm⟩
  · left
    have h2 : a = x ∧ b = y ∧ s = s2 := by simpa using h
    exact ⟨h2.1.symm, h2.2.1.symm⟩

theorem medianGo_mem [Inhabited α] (lt : α → α → Bool) (l : List α) (a b c s : Nat) :
    (medianGo lt l a b c s).1 = a ∨ (medianGo lt l a b c s).1 = b ∨
      (medianGo lt l a b c s).1 = c := by
  unfold medianGo
  rcases ho1 : order2Go lt l a b s with ⟨a1, b1, s1⟩
  dsimp only
  rcases ho2 : order2Go lt l b1 c s1 with ⟨b2, c2, s2⟩
  dsimp only
  rcases ho3 : order2Go lt l a1 b2 s2 with ⟨a3, b3, s3⟩
  dsimp only
  have m1 := order2Go_eq lt l a b s a1 b1 s1 ho1
  have m2 := order2Go_eq lt l b1 c s1 b2 c2 s2 ho2
  have m3 := order2Go_eq lt l a1 b2 s2 a3 b3 s3 ho3
  omega

theorem medianAdjGo_mem [Inhabited α] (lt : α → α → Bool) (l : List α) (a s : Nat) :
    (medianAdjGo lt l a s).1 = a - 1 ∨ (medianAdjGo lt l a s).1 = a ∨
      (medianAdjGo lt l a s).1 = a + 1 := by
  unfold medianAdjGo
  exact medianGo_mem lt l (a - 1) a (a + 1) s

theorem choosePivotGo_bounds (l : List Result) (a b : Nat) (h : 13 ≤ b - a) :
    a ≤ (choosePivotGo resLt l a b).1 ∧ (choosePivotGo resLt l a b).1 < b := by
  unfold choosePivotGo
  dsimp only
  rw [if_pos (by omega : 8 ≤ b - a)]
  by_cases h50 : 50 ≤ b - a
  · rw [if_pos h50]
    dsimp only
    set m1 := medianAdjGo resLt l (a + (b - a) / 4 * 1) 0 with hm1def
    set m2 := medianAdjGo resLt l (a + (b - a) / 4 * 2) m1.2 with hm2def
    set m3 := medianAdjGo resLt l (a + (b - a) / 4 * 3) m2.2 with hm3def
    have b1 : m1.1 = a + (b - a) / 4 * 1 - 1 ∨ m1.1 = a + (b - a) / 4 * 1 ∨
        m1.1 = a + (b - a) / 4 * 1 + 1 :=
      medianAdjGo_mem resLt l (a + (b - a) / 4 * 1) 0
    have b2 : m2.1 = a + (b - a) / 4 * 2 - 1 ∨ m2.1 = a + (b - a) / 4 * 2 ∨
        m2.1 = a + (b - a) / 4 * 2 + 1 :=
      medianAdjGo_mem resLt l (a + (b - a) / 4 * 2) m1.2
    have b3 : m3.1 = a + (b - a) / 4 * 3 - 1 ∨ m3.1 = a + (b - a) / 4 * 3 ∨
        m3.1 = a + (b - a) / 4 * 3 + 1 :=
      medianAdjGo_mem resLt l (a + (b - a) / 4 * 3) m2.2
    have b4 : (medianGo resLt l m1.1 m2.1 m3.1 m3.2).1 = m1.1 ∨
        (medianGo resLt l m1.1 m2.1 m3.1 m3.2).1 = m2.1 ∨
        (medianGo resLt l m1.1 m2.1 m3.1 m3.2).1 = m3.1 :=
      medianGo_mem resLt l m1.1 m2.1 m3.1 m3.2
    split
    · dsimp only
      omega
    · split
      · dsimp only
        omega
      · dsimp only
        omega
  · rw [if_neg h50]
    dsimp only
    have b4 : (medianGo resLt l (a + (b - a) / 4 * 1) (a + (b - a) / 4 * 2)
          (a + (b - a) / 4 * 3) 0).1 = a + (b - a) / 4 * 1 ∨
        (medianGo resLt l (a + (b - a) / 4 * 1) (a + (b - a) / 4 * 2)
          (a + (b - a) / 4 * 3) 0).1 = a + (b - a) / 4 * 2 ∨
        (medianGo resLt l (a + (b - a) / 4 * 1) (a + (b - a) / 4 * 2)
          (a + (b - a) / 4 * 3) 0).1 = a + (b - a) / 4 * 3 :=
      medianGo_mem resLt l (a + (b - a) / 4 * 1) (a + (b - a) / 4 * 2)
        (a + (b - a) / 4 * 3) 0
    split
    · dsimp only
      omega
    · split
      · dsimp only
        omega
      · dsimp only
        omega

theorem breakPatternsGo_seg (l : List Result) (a b : Nat) (hb : b ≤ l.length) :
    SegOp l (breakPatternsGo l a b) a b := by
  unfold breakPatternsGo
  dsimp only
  split
  case isFalse => exact segOp_refl l a b
  case isTrue h8 =>
    have hmod : nextPow2 (b - a) ≤ 2 * (b - a) := by
      unfold nextPow2 bitsLen
      rw [if_neg (by omega : ¬ b - a = 0)]
      rw [Nat.shiftLeft_eq]
      have hlog := Nat.log2_self_le (by omega : b - a ≠ 0)
      rw [pow_succ]
      omega
    have hofit : ∀ r : Nat,
        (if b - a ≤ r &&& (nextPow2 (b - a) - 1) then (r &&& (nextPow2 (b - a) - 1)) - (b - a)
          else r &&& (nextPow2 (b - a) - 1)) < b - a := by
      intro r
      have hand : r &&& (nextPow2 (b - a) - 1) ≤ nextPow2 (b - a) - 1 := Nat.and_le_right
      split <;> omega
    have h1 := hofit (xorshiftNext (b - a))
    have h2 := hofit (xorshiftNext (xorshiftNext (b - a)))
    have h3 := hofit (xorshiftNext (xorshiftNext (xorshiftNext (b - a))))
    have hidx1 : a ≤ a + (b - a) / 4 * 2 - 1 - 1 := by omega
    have hidx2 : a + (b - a) / 4 * 2 - 1 + 1 < b := by omega
    refine segOp_trans (segOp_dswap l hidx1 (by omega) (by omega) (by omega) hb)
      (segOp_trans (segOp_dswap _ (by omega) (by omega) (by omega) (by omega)
        (by rw [dswap_length]; exact hb))
        (segOp_dswap _ (by omega) hidx2 (by omega) (by omega)
          (by rw [dswap_length, dswap_length]; exact hb)))

set_option maxHeartbeats 1600000 in
theorem pdqsortGo_sorts :
    ∀ (fuel : Nat) (l : List Result) (a b limit : Nat) (wb wp : Bool),
      a ≤ b → b ≤ l.length → b - a + 2 ≤ fuel →
      (0 < a → ∀ k, a ≤ k → k < b → dsc l k ≤ dsc l (a - 1)) →
      SegOp l (pdqsortGo resLt fuel l a b limit wb wp) a b ∧
      SortedSeg (pdqsortGo resLt fuel l a b limit wb wp) a b := by
  intro fuel
  induction fuel with
  | zero =>
    intro l a b limit wb wp h1 h2 h3 h4
    exact absurd h3 (by omega)
  | succ fuel ih =>
    intro l a b limit wb wp hab hb hfuel hlb
    unfold pdqsortGo
    dsimp only
    split
    case isTrue h12 =>
      exact ⟨segOp_insertionSortRange resLt l a b hab hb,
        insertionSortRange_sorted l a b hab hb⟩
    case isFalse h12 =>
      split
      case isTrue hlim => exact heapSortGo_spec l a b hab hb
      case isFalse hlim =>
        have h13 : 13 ≤ b - a := by omega
        set l1 := if (!wb) = true then breakPatternsGo l a b else l with hl1def
        set limit1 := if (!wb) = true then limit - 1 else limit with hlim1def
        have hseg1 : SegOp l l1 a b := by
          rw [hl1def]
          by_cases hw : (!wb) = true
          · rw [if_pos hw]
            exact breakPatternsGo_seg l a b hb
          · rw [if_neg hw]
            exact segOp_refl l a b
        have hlen1 : l1.length = l.length := hseg1.1
        have hlb1 : 0 < a → ∀ k, a ≤ k → k < b → dsc l1 k ≤ dsc l1 (a - 1) :=
          fun ha0 => lbound_of_segOp l l1 a b ha0 hseg1 (hlb ha0)
        set cp := choosePivotGo resLt l1 a b with hcpdef
        set doRev := hintIsDec cp.2 with hdoRevdef
        set l2 := if doRev = true then reverseRangeGo l1 a b else l1 with hl2def
        set pivot := if doRev = true then b - 1 - (cp.1 - a) else cp.1 with hpivdef
        set hint := if doRev = true then SortHint.increasing else cp.2 with hhintdef
        have hseg2 : SegOp l1 l2 a b := by
          rw [hl2def]
          by_cases hr : doRev = true
          · rw [if_pos hr]
            exact segOp_reverseRange l1 a b hab (by rw [hlen1]; exact hb)
          · rw [if_neg hr]
            exact segOp_refl l1 a b
        have hlen2 : l2.length = l.length := by rw [hseg2.1, hlen1]
        have hlb2 : 0 < a → ∀ k, a ≤ k → k < b → dsc l2 k ≤ dsc l2 (a - 1) :=
          fun ha0 => lbound_of_segOp l1 l2 a b ha0 hseg2 (hlb1 ha0)
        have hpivb : a ≤ pivot ∧ pivot < b := by
          have hcb : a ≤ cp.1 ∧ cp.1 < b := choosePivotGo_bounds l1 a b h13
          rw [hpivdef]
          by_cases hr : doRev = true
          · rw [if_pos hr]
            omega
          · rw [if_neg hr]
            exact hcb
        set pa := if (wb && wp && hintIsInc hint) = true then almostSortGo resLt a b l2 (a + 1) 5
          else (l2, false) with hpadef
        have hpa : SegOp l2 pa.1 a b ∧ (pa.2 = true → SortedSeg pa.1 a b) := by
          rw [hpadef]
          by_cases hc : (wb && wp && hintIsInc hint) = true
          · rw [if_pos hc]
            exact almostSortGo_spec a b 5 l2 (a + 1) (le_refl (a + 1)) (by omega)
              (by rw [hlen2]; exact hb) hlb2 (by intro k hk1 hk2; omega)
          · rw [if_neg hc]
            exact ⟨segOp_refl l2 a b, fun hcc => by simp at hcc⟩
        have hseg3 : SegOp l pa.1 a b := segOp_trans hseg1 (segOp_trans hseg2 hpa.1)
        have hlen3 : pa.1.length = l.length := hseg3.1
        have hlb3 : 0 < a → ∀ k, a ≤ k → k < b → dsc pa.1 k ≤ dsc pa.1 (a - 1) :=
          fun ha0 => lbound_of_segOp l2 pa.1 a b ha0 hpa.1 (hlb2 ha0)
        split
        case isTrue htrue =>
          exact ⟨hseg3, hpa.2 htrue⟩
        case isFalse hnotsorted =>
          split
          case isTrue hguard =>
            have hga : 0 < a ∧ (! resLt (dget pa.1 (a - 1)) (dget pa.1 pivot)) = true := by
              simpa using hguard
            have ha0 : 0 < a := hga.1
            have hgv : dsc pa.1 (a - 1) ≤ dsc pa.1 pivot := by
              have hx : resLt (dget pa.1 (a - 1)) (dget pa.1 pivot) = false := by
                simpa using hga.2
              have := (resLt_false_iff _ _).mp hx
              unfold dsc
              omega
            have hall : ∀ k, a ≤ k → k < b → dsc pa.1 k ≤ dsc pa.1 pivot :=
              fun k hk1 hk2 => le_trans (hlb3 ha0 k hk1 hk2) hgv
            obtain ⟨q1, q2, q3, q4, q5⟩ := partitionEqGo_spec pa.1 a b pivot (by omega)
              (by rw [hlen3]; exact hb) hpivb.1 hpivb.2
            set pe := partitionEqGo resLt pa.1 a b pivot with hpedef
            have hall2 : ∀ k, a ≤ k → k < b → dsc pe.1 k ≤ dsc pa.1 pivot := by
              intro k hk1 hk2
              obtain ⟨k2, hk21, hk22, hk23⟩ := q1.2.2 k hk1 hk2
              have he : dsc pe.1 k = dsc pa.1 k2 := by
                unfold dsc
                rw [hk23]
              rw [he]
              exact hall k2 hk21 hk22
            have hleft : ∀ k, a ≤ k → k < pe.2 → dsc pe.1 k = dsc pa.1 pivot := by
              intro k hk1 hk2
              have hx := q4 k hk1 hk2
              have hy := hall2 k hk1 (by omega)
              omega
            have hlbr : 0 < pe.2 → ∀ k, pe.2 ≤ k → k < b →
                dsc pe.1 k ≤ dsc pe.1 (pe.2 - 1) := by
              intro hmz k hk1 hk2
              have hx := q5 k hk1 hk2
              have hy := hleft (pe.2 - 1) (by omega) (by omega)
              omega
            obtain ⟨r1, r2⟩ := ih pe.1 pe.2 b limit1 wb wp q3
              (by rw [q1.1, hlen3]; exact hb) (by omega) hlbr
            constructor
            · exact segOp_trans hseg3
                (segOp_trans q1 (segOp_mono r1 (by omega) (le_refl b)))
            · intro i j hi hij hj
              have hfL : ∀ k, a ≤ k → k < pe.2 →
                  dsc (pdqsortGo resLt fuel pe.1 pe.2 b limit1 wb wp) k =
                    dsc pa.1 pivot := by
                intro k hk1 hk2
                have hu : dget (pdqsortGo resLt fuel pe.1 pe.2 b limit1 wb wp) k =
                    dget pe.1 k := r1.2.1 k (Or.inl hk2)
                have hv := hleft k hk1 hk2
                unfold dsc at hv ⊢
                rw [hu]
                exact hv
              have hfR : ∀ k, pe.2 ≤ k → k < b →
                  dsc (pdqsortGo resLt fuel pe.1 pe.2 b limit1 wb wp) k <
                    dsc pa.1 pivot := by
                intro k hk1 hk2
                obtain ⟨k2, hk21, hk22, hk23⟩ := r1.2.2 k hk1 hk2
                have hx := q5 k2 hk21 hk22
                unfold dsc at hx ⊢
                rw [hk23]
                exact hx
              rcases Nat.lt_or_ge i pe.2 with hi2 | hi2
              · rcases Nat.lt_or_ge j pe.2 with hj2 | hj2
                · rw [hfL i hi hi2, hfL j (by omega) hj2]
                · have hx := hfR j hj2 hj
                  rw [hfL i hi hi2]
                  omega
              · exact r2 i j hi2 hij hj
          case isFalse hguard =>
            obtain ⟨t1, t2, t3, t4, t5⟩ := partitionGo_spec pa.1 a b pivot (by omega)
              (by rw [hlen3]; exact hb) hpivb.1 hpivb.2
            set pt := partitionGo resLt pa.1 a b pivot with hptdef
            set mid := pt.2.1 with hmiddef
            have hlen4 : pt.1.length = l.length := by rw [t1.1, hlen3]
            have hlbL : 0 < a → ∀ k, a ≤ k → k < mid → dsc pt.1 k ≤ dsc pt.1 (a - 1) := by
              intro ha0 k hk1 hk2
              obtain ⟨k2, hk21, hk22, hk23⟩ := t1.2.2 k hk1 (by omega)
              have hout : dget pt.1 (a - 1) = dget pa.1 (a - 1) :=
                t1.2.1 (a - 1) (Or.inl (by omega))
              unfold dsc
              rw [hk23, hout]
              exact hlb3 ha0 k2 hk21 hk22
            split
            case isTrue hless =>
              obtain ⟨u1, u2⟩ := ih pt.1 a mid limit1 true true t2
                (by rw [hlen4]; omega) (by omega) hlbL
              set l5 := pdqsortGo resLt fuel pt.1 a mid limit1 true true with hl5def
              have hl5len : l5.length = l.length := by rw [u1.1, hlen4]
              have hmid5 : ∀ k, mid ≤ k → dget l5 k = dget pt.1 k :=
                fun k hk => u1.2.1 k (Or.inr hk)
              have hlbR : 0 < mid + 1 → ∀ k, mid + 1 ≤ k → k < b →
                  dsc l5 k ≤ dsc l5 (mid + 1 - 1) := by
                intro hmz k hk1 hk2
                have e1 : dget l5 k = dget pt.1 k := hmid5 k (by omega)
                have e2 : dget l5 (mid + 1 - 1) = dget pt.1 mid := by
                  have hx : mid + 1 - 1 = mid := by omega
                  rw [hx]
                  exact hmid5 mid (le_refl mid)
                have hv := t5 k (by omega) hk2
                unfold dsc at hv ⊢
                rw [e1, e2]
                exact hv
              obtain ⟨v1, v2⟩ := ih l5 (mid + 1) b limit1
                (decide ((b - a) / 8 ≤ min (mid - a) (b - mid))) pt.2.2
                (by omega) (by rw [hl5len]; exact hb) (by omega) hlbR
              set rfin := pdqsortGo resLt fuel l5 (mid + 1) b limit1
                (decide ((b - a) / 8 ≤ min (mid - a) (b - mid))) pt.2.2 with hrfindef
              have hAeq : ∀ k, k < mid + 1 → dget rfin k = dget l5 k :=
                fun k hk => v1.2.1 k (Or.inl hk)
              have hl5left : ∀ k, a ≤ k → k < mid → dsc pt.1 mid < dsc l5 k := by
                intro k hk1 hk2
                obtain ⟨k2, hk21, hk22, hk23⟩ := u1.2.2 k hk1 hk2
                have hv := t4 k2 hk21 hk22
                unfold dsc at hv ⊢
                rw [hk23]
                exact hv
              have hrright : ∀ k, mid + 1 ≤ k → k < b → dsc rfin k ≤ dsc pt.1 mid := by
                intro k hk1 hk2
                obtain ⟨k2, hk21, hk22, hk23⟩ := v1.2.2 k hk1 hk2
                have e1 : dget l5 k2 = dget pt.1 k2 := hmid5 k2 (by omega)
                have hv := t5 k2 (by omega) hk22
                unfold dsc at hv ⊢
                rw [hk23, e1]
                exact hv
              have hrmid : dsc rfin mid = dsc pt.1 mid := by
                unfold dsc
                rw [hAeq mid (by omega), hmid5 mid (le_refl mid)]
              have hrleft : ∀ k, a ≤ k → k < mid → dsc pt.1 mid < dsc rfin k := by
                intro k hk1 hk2
                have e := hAeq k (by omega)
                have hv := hl5left k hk1 hk2
                unfold dsc at hv ⊢
                rw [e]
                exact hv
              constructor
              · exact segOp_trans hseg3 (segOp_trans t1
                  (segOp_trans (segOp_mono u1 (le_refl a) (by omega))
                    (segOp_mono v1 (by omega) (le_refl b))))
              · intro i j hi hij hj
                rcases Nat.lt_or_ge j mid with hj2 | hj2
                · have ei : dsc rfin i = dsc l5 i := by
                    unfold dsc
                    rw [hAeq i (by omega)]
                  have ej : dsc rfin j = dsc l5 j := by
                    unfold dsc
                    rw [hAeq j (by omega)]
                  rw [ei, ej]
                  exact u2 i j hi hij hj2
                · rcases Nat.eq_or_lt_of_le hj2 with hj3 | hj3
                  · rw [← hj3, hrmid]
                    have := hrleft i hi (by omega)
                    omega
                  · rcases Nat.lt_or_ge i mid with hi2 | hi2
                    · have hx := hrright j (by omega) hj
                      have hy := hrleft i hi hi2
                      omega
                    · rcases Nat.eq_or_lt_of_le hi2 with hi3 | hi3
                      · rw [← hi3, hrmid]
                        exact hrright j (by omega) hj
                      · exact v2 i j (by omega) hij hj
            case isFalse hless =>
              have hlbR2 : 0 < mid + 1 → ∀ k, mid + 1 ≤ k → k < b →
                  dsc pt.1 k ≤ dsc pt.1 (mid + 1 - 1) := by
                intro hmz k hk1 hk2
                have hx : mid + 1 - 1 = mid := by omega
                rw [hx]
                exact t5 k (by omega) hk2
              obtain ⟨u1, u2⟩ := ih pt.1 (mid + 1) b limit1 true true
                (by omega) (by rw [hlen4]; exact hb) (by omega) hlbR2
              set l5 := pdqsortGo resLt fuel pt.1 (mid + 1) b limit1 true true with hl5def
              have hl5len : l5.length = l.length := by rw [u1.1, hlen4]
              have hout5 : ∀ k, k < mid + 1 → dget l5 k = dget pt.1 k :=
                fun k hk => u1.2.1 k (Or.inl hk)
              have hlbL2 : 0 < a → ∀ k, a ≤ k → k < mid → dsc l5 k ≤ dsc l5 (a - 1) := by
                intro ha0 k hk1 hk2
                have e1 : dget l5 k = dget pt.1 k := hout5 k (by omega)
                have e2 : dget l5 (a - 1) = dget pt.1 (a - 1) := hout5 (a - 1) (by omega)
                have hv := hlbL ha0 k hk1 hk2
                unfold dsc at hv ⊢
                rw [e1, e2]
                exact hv
              obtain ⟨v1, v2⟩ := ih l5 a mid limit1
                (decide ((b - a) / 8 ≤ min (mid - a) (b - mid))) pt.2.2
                t2 (by rw [hl5len]; omega) (by omega) hlbL2
              set rfin := pdqsortGo resLt fuel l5 a mid limit1
                (decide ((b - a) / 8 ≤ min (mid - a) (b - mid))) pt.2.2 with hrfindef
              have hBeq : ∀ k, mid ≤ k → dget rfin k = dget l5 k :=
                fun k hk => v1.2.1 k (Or.inr hk)
              have hrright : ∀ k, mid + 1 ≤ k → k < b → dsc rfin k ≤ dsc pt.1 mid := by
                intro k hk1 hk2
                obtain ⟨k2, hk21, hk22, hk23⟩ := u1.2.2 k hk1 hk2
                have e0 : dget rfin k = dget l5 k := hBeq k (by omega)
                have hv := t5 k2 (by omega) hk22
                unfold dsc at hv ⊢
                rw [e0, hk23]
                exact hv
              have hrmid : dsc rfin mid = dsc pt.1 mid := by
                unfold dsc
                rw [hBeq mid (le_refl mid), hout5 mid (by omega)]
              have hrleft : ∀ k, a ≤ k → k < mid → dsc pt.1 mid < dsc rfin k := by
                intro k hk1 hk2
                obtain ⟨k2, hk21, hk22, hk23⟩ := v1.2.2 k hk1 hk2
                have e1 : dget l5 k2 = dget pt.1 k2 := hout5 k2 (by omega)
                have hv := t4 k2 hk21 hk22
                unfold dsc at hv ⊢
                rw [hk23, e1]
                exact hv
              have hrsortR : ∀ i j, mid + 1 ≤ i → i < j → j < b →
                  dsc rfin j ≤ dsc rfin i := by
                intro i j h1 h2 h3
                have e1 : dget rfin i = dget l5 i := hBeq i (by omega)
                have e2 : dget rfin j = dget l5 j := hBeq j (by omega)
                have hv := u2 i j h1 h2 h3
                unfold dsc at hv ⊢
                rw [e1, e2]
                exact hv
              constructor
              · exact segOp_trans hseg3 (segOp_trans t1
                  (segOp_trans (segOp_mono u1 (by omega) (le_refl b))
                    (segOp_mono v1 (le_refl a) (by omega))))
              · intro i j hi hij hj
                rcases Nat.lt_or_ge j mid with hj2 | hj2
                · exact v2 i j hi hij hj2
                · rcases Nat.eq_or_lt_of_le hj2 with hj3 | hj3
                  · rw [← hj3, hrmid]
                    have := hrleft i hi (by omega)
                    omega
                  · rcases Nat.lt_or_ge i mid with hi2 | hi2
                    · have hx := hrright j (by omega) hj
                      have hy := hrleft i hi hi2
                      omega
                    · rcases Nat.eq_or_lt_of_le hi2 with hi3 | hi3
                      · rw [← hi3, hrmid]
                        exact hrright j (by omega) hj
                      · exact hrsortR i j (by omega) hij hj

theorem sortSliceGo_pairwise (l : List Result) :
    List.Pairwise (fun u v => v.score ≤ u.score) (sortSliceGo resLt l) := by
  unfold sortSliceGo
  obtain ⟨s1, s2⟩ := pdqsortGo_sorts (l.length + bitsLen l.length + 2) l 0 l.length
    (bitsLen l.length) true true (Nat.zero_le _) (le_refl _) (by omega)
    (fun h => absurd h (by omega))
  apply sortedSeg_pairwise
  have hlen : (pdqsortGo resLt (l.length + bitsLen l.length + 2) l 0 l.length
      (bitsLen l.length) true true).length = l.length := s1.1
  rw [hlen]
  exact s2

/-- C6 amended: for every query and entity list, every returned score is
strictly positive and the candidate list is sorted by non-increasing
score (sort.Slice always sorts; the full pdqsort embedding is proved to
sort above).  Only the tie-order clause needs the restriction: whenever
at most 12 entities match — so that sort.Slice runs its insertion sort,
which preserves arrival order of ties — the candidates with any given
score appear in input entity order.  With 13 or more matching entities
sort.Slice gives no tie-order guarantee (see the counterexample). -/
theorem C6_candidates_amended (query : String) (idx : List Index) :
    (∀ r ∈ candidates query idx, 0 < r.score) ∧
    List.Pairwise (fun u v => v.score ≤ u.score) (candidates query idx) ∧
    ((preScores (String.mk (goTrimSpace query.toList)) idx).length ≤ 12 →
      ∀ v : Int, (candidates query idx).filter (fun r => r.score = v) =
        (preScores (String.mk (goTrimSpace query.toList)) idx).filter
          (fun r => r.score = v)) := by
  refine ⟨?_, ?_, ?_⟩
  · intro r hr
    exact (preScores_mem _ idx r (candidates_mem_pre query idx r hr)).1
  · unfold candidates
    dsimp only
    split
    case isTrue h => exact List.Pairwise.nil
    case isFalse h => exact sortSliceGo_pairwise _
  · intro hlen
    intro v
    unfold candidates
    dsimp only
    split
    case isTrue h =>
      rw [h, preScores_empty_query]
    case isFalse h =>
      rw [sortSliceGo_small resLt _ hlen]
      exact insSortList_filter_score v _

/-- C6 witness: the amended theorem applied to the query "a" and three
entities (scores 78, 78, 79): positivity and sortedness hold, and with
at most 12 candidates the tie order is the input order. -/
theorem C6_candidates_amended_witness :
    ((preScores (String.mk (goTrimSpace "a".toList)) wIdx).length ≤ 12) ∧
    (∀ r ∈ candidates "a" wIdx, 0 < r.score) ∧
    List.Pairwise (fun u v => v.score ≤ u.score) (candidates "a" wIdx) ∧
    (∀ v : Int, (candidates "a" wIdx).filter (fun r => r.score = v) =
      (preScores (String.mk (goTrimSpace "a".toList)) wIdx).filter
        (fun r => r.score = v)) :=
  ⟨by decide, (C6_candidates_amended "a" wIdx).1, (C6_candidates_amended "a" wIdx).2.1,
    fun v => (C6_candidates_amended "a" wIdx).2.2 (by decide) v⟩
